import Mathlib

/-!
Verification of the ART optimizing-compiler core slice:
liveness intervals (`compiler/optimizing/ssa_liveness_analysis.h`),
the graph builder (`compiler/optimizing/builder.cc`) and the Arm64
instruction encoder (`compiler/dex/quick/arm64/utility_arm64.cc`).

Each C++ entity is embedded shallowly: linked lists of arena nodes become
Lean lists, machine integers become `Nat`/`Int` with explicit wrap where it
matters, and fallible paths return `Option`.
-/

set_option maxHeartbeats 1000000

/- ===================================================================
   Part 1 . Definitions: SSA liveness analysis (ssa_liveness_analysis.h)
   =================================================================== -/

/-- A live range `[start, end)` of lifetime positions.
Embeds class `LiveRange` (ssa_liveness_analysis.h:51-83); the C++ fields
are `start_` and `end_`, the successor pointer `next_` becomes the tail of
a Lean list. -/
structure LiveRange where
  start_ : Nat
  end_ : Nat
deriving DecidableEq, Repr

/-- LiveRange::GetStart. -/
def LiveRange.GetStart (r : LiveRange) : Nat := r.start_

/-- LiveRange::GetEnd. -/
def LiveRange.GetEnd (r : LiveRange) : Nat := r.end_

/-- LiveRange::IntersectsWith (ssa_liveness_analysis.h:62-65). -/
def IntersectsWith (a other : LiveRange) : Bool :=
  (decide (a.start_ ≥ other.start_) && decide (a.start_ < other.end_))
    || (decide (other.start_ ≥ a.start_) && decide (other.start_ < a.end_))

/-- LiveRange::IsBefore (ssa_liveness_analysis.h:67-69). -/
def IsBefore (a other : LiveRange) : Bool :=
  decide (a.end_ ≤ other.start_)

/-- The range chain of a `LiveInterval`, front (`first_range_`) to back
(`last_range_`).  The interval's other fields (uses, type, register) do not
take part in the range-chain claims. -/
abbrev RangeChain := List LiveRange

/-- LiveInterval::GetStart (ssa_liveness_analysis.h:251-253):
`first_range_->GetStart()`; the C++ dereferences `first_range_`, so the
value on an empty chain is never consulted under the documented
preconditions. -/
def GetStartI (ranges : RangeChain) : Nat :=
  match ranges with
  | [] => 0
  | r :: _ => r.start_

/-- LiveInterval::AddUse (ssa_liveness_analysis.h:129-147), restricted to
its effect on the range chain (the use chain is irrelevant to the range
invariants).  `position` is the use position, the other two arguments are
the containing block's lifetime start/end. -/
def AddUse (ranges : RangeChain)
    (position start_block_position end_block_position : Nat) : RangeChain :=
  match ranges with
  | [] =>
    -- First time we see a use of that interval.
    [⟨start_block_position, position⟩]
  | r :: rest =>
    if r.start_ = start_block_position then
      -- There is a use later in the same block.
      r :: rest
    else if r.start_ = end_block_position then
      -- Last use is in the following block: first_range_->start_ updated.
      ⟨start_block_position, r.end_⟩ :: rest
    else
      -- There is a hole in the interval. Create a new range.
      ⟨start_block_position, position⟩ :: r :: rest

/-- Documented precondition of `AddUse` on the taken path: the `DCHECK`s of
the `LiveRange` constructor (start < end, next begins strictly after the
new range ends) and the `DCHECK_LE(position, first_range_->GetEnd())` of
the same-block case. -/
def AddUsePre (ranges : RangeChain)
    (position start_block_position end_block_position : Nat) : Bool :=
  match ranges with
  | [] => decide (start_block_position < position)
  | r :: _ =>
    if r.start_ = start_block_position then decide (position ≤ r.end_)
    else if r.start_ = end_block_position then true
    else decide (start_block_position < position) && decide (position < r.start_)

/-- LiveInterval::AddRange (ssa_liveness_analysis.h:154-164). -/
def AddRange (ranges : RangeChain) (start endp : Nat) : RangeChain :=
  match ranges with
  | [] => [⟨start, endp⟩]
  | r :: rest =>
    if r.start_ = endp then
      -- There is a use in the following block: extend the front range.
      ⟨start, r.end_⟩ :: rest
    else
      -- There is a hole in the interval. Create a new range.
      ⟨start, endp⟩ :: r :: rest

/-- Documented precondition of `AddRange`: the `LiveRange` constructor
`DCHECK`s on the paths that build a fresh node. -/
def AddRangePre (ranges : RangeChain) (start endp : Nat) : Bool :=
  match ranges with
  | [] => decide (start < endp)
  | r :: _ =>
    if r.start_ = endp then true
    else decide (start < endp) && decide (endp < r.start_)

/-- LiveInterval::AddLoopRange (ssa_liveness_analysis.h:166-179): drop the
leading ranges that end before `endp`, then either create the single loop
range or stretch the surviving front range back to `start`. -/
def AddLoopRange (ranges : RangeChain) (start endp : Nat) : RangeChain :=
  match ranges with
  | [] =>
    -- Uses are only in the loop.
    [⟨start, endp⟩]
  | r :: rest =>
    if r.end_ < endp then AddLoopRange rest start endp
    else
      -- There are uses after the loop: first_range_->start_ updated.
      ⟨start, r.end_⟩ :: rest

/-- Documented precondition of `AddLoopRange`: the chain is nonempty
(`DCHECK(first_range_ != nullptr)`), every dropped range starts at or
after `start` (`DCHECK_LE(start, first_range_->GetStart())` inside the
loop) and the constructor `DCHECK` when the loop consumes every range. -/
def AddLoopRangePreAux (ranges : RangeChain) (start endp : Nat) : Bool :=
  match ranges with
  | [] => decide (start < endp)
  | r :: rest =>
    if r.end_ < endp then decide (start ≤ r.start_) && AddLoopRangePreAux rest start endp
    else true

/-- Top-level precondition of `AddLoopRange` (see `AddLoopRangePreAux`). -/
def AddLoopRangePre (ranges : RangeChain) (start endp : Nat) : Bool :=
  !ranges.isEmpty && AddLoopRangePreAux ranges start endp

/-- LiveInterval::SetFrom (ssa_liveness_analysis.h:181-184). -/
def SetFrom (ranges : RangeChain) (from_ : Nat) : RangeChain :=
  match ranges with
  | [] => []
  | r :: rest => ⟨from_, r.end_⟩ :: rest

/-- Documented precondition of `SetFrom`: `DCHECK(first_range_ != nullptr)`. -/
def SetFromPre (ranges : RangeChain) : Bool := !ranges.isEmpty

/-- LiveInterval::IsDeadAt (ssa_liveness_analysis.h:193-195):
`last_range_->GetEnd() <= position`. -/
def IsDeadAt (ranges : RangeChain) (position : Nat) : Bool :=
  match ranges.getLast? with
  | none => true
  | some last => decide (last.end_ ≤ position)

/-- LiveInterval::Covers (ssa_liveness_analysis.h:197-206): linear scan of
the range chain. -/
def Covers (ranges : RangeChain) (position : Nat) : Bool :=
  match ranges with
  | [] => false
  | r :: rest =>
    if position ≥ r.start_ ∧ position < r.end_ then true
    else Covers rest position

/-- The range-chain surgery of LiveInterval::SplitAt
(ssa_liveness_analysis.h:299-335): walk the chain with a `previous`
cursor; on exit the first component is the shrunken original chain, the
second the new sibling's chain.  The C++ rewires `next_`/`last_range_`
pointers; here the walk returns both chains directly. -/
def splitRanges (position : Nat) : RangeChain → RangeChain × RangeChain
  | [] => ([], [])
  | r :: rest =>
    if position ≥ r.end_ then
      -- Move to next range.
      let p := splitRanges position rest
      (r :: p.1, p.2)
    else if position ≤ r.start_ then
      -- Lifetime hole: break the chain right before `r`.
      ([], r :: rest)
    else
      -- `r` covers position: shorten it for the original, and let the
      -- sibling start with [position, r.end_).
      ([⟨r.start_, position⟩], ⟨position, r.end_⟩ :: rest)

/-- LiveInterval::SplitAt (ssa_liveness_analysis.h:286-339).  `none` is the
C++ `nullptr` "no split needed" result; otherwise the pair holds the
shrunken original chain and the new sibling's chain. -/
def SplitAt (ranges : RangeChain) (position : Nat) :
    Option (RangeChain × RangeChain) :=
  match ranges.getLast? with
  | none => none
  | some last =>
    if last.end_ ≤ position then
      -- This range dies before `position`, no need to split.
      none
    else
      some (splitRanges position ranges)

/-- Documented precondition of `SplitAt`: the interval is not yet split
(`DCHECK(next_sibling_ == nullptr)`, captured by the reachability relation
below splitting only chains, never re-splitting a consumed original) and
`DCHECK_GT(position, GetStart())`. -/
def SplitAtPre (ranges : RangeChain) (position : Nat) : Bool :=
  !ranges.isEmpty && decide (GetStartI ranges < position)

/-- The two-pointer sweep of LiveInterval::FirstIntersectionWith
(ssa_liveness_analysis.h:232-248). -/
def firstIntersectionLoop : RangeChain → RangeChain → Option Nat
  | [], _ => none
  | _, [] => none
  | m :: ms, o :: os =>
    if IntersectsWith m o then some (max m.start_ o.start_)
    else if IsBefore m o then firstIntersectionLoop ms (o :: os)
    else firstIntersectionLoop (m :: ms) os
termination_by my other => my.length + other.length

/-- The skip phase of FirstIntersectionWith
(ssa_liveness_analysis.h:218-225): advance past ranges of this interval
that start before the other interval. -/
def skipRangesBefore (other_start : Nat) : RangeChain → RangeChain
  | [] => []
  | r :: rest => if r.start_ ≥ other_start then r :: rest else skipRangesBefore other_start rest

/-- LiveInterval::FirstIntersectionWith (ssa_liveness_analysis.h:211-249);
`none` is the C++ `kNoLifetime` sentinel. -/
def FirstIntersectionWith (ranges other : RangeChain) : Option Nat :=
  match other with
  | [] => none
  | o :: _ => firstIntersectionLoop (skipRangesBefore o.start_ ranges) (o :: other.tail)

/-- The range-chain ordering invariant of a `LiveInterval` (the class
comment "a list of disjoint live ranges", LiveRange's constructor
`DCHECK(next_ == nullptr || next_->GetStart() > GetEnd())`): consecutive
ranges neither overlap nor touch. -/
def ChainOrdered (ranges : RangeChain) : Prop :=
  List.Chain' (fun a b => a.end_ < b.start_) ranges

/-- Per-range well-formedness (`DCHECK_LT(start, end)` in the LiveRange
constructor): every range is nonempty. -/
def RangesWellFormed (ranges : RangeChain) : Prop :=
  ∀ r ∈ ranges, r.start_ < r.end_

instance instDecChainOrdered : (ranges : RangeChain) → Decidable (ChainOrdered ranges)
  | [] => isTrue List.chain'_nil
  | [r] => isTrue (List.chain'_singleton r)
  | a :: b :: rest =>
    have : Decidable (ChainOrdered (b :: rest)) := instDecChainOrdered (b :: rest)
    decidable_of_iff (a.end_ < b.start_ ∧ ChainOrdered (b :: rest))
      (by
        unfold ChainOrdered
        constructor
        · rintro ⟨u, v⟩; exact List.chain'_cons.mpr ⟨u, v⟩
        · intro u; exact ⟨(List.chain'_cons.mp u).1, (List.chain'_cons.mp u).2⟩)

instance (ranges : RangeChain) : Decidable (RangesWellFormed ranges) :=
  List.decidableBAll _ ranges

/-- Chains reachable from a fresh interval by any sequence of the mutating
operations, each fired under its documented precondition; a `SplitAt`
yields two reachable chains (the shrunken original and the new sibling). -/
inductive ReachableChain : RangeChain → Prop where
  | nil : ReachableChain []
  | addUse : ∀ rs p sb eb, ReachableChain rs → AddUsePre rs p sb eb = true →
      ReachableChain (AddUse rs p sb eb)
  | addRange : ∀ rs s e, ReachableChain rs → AddRangePre rs s e = true →
      ReachableChain (AddRange rs s e)
  | addLoopRange : ∀ rs s e, ReachableChain rs → AddLoopRangePre rs s e = true →
      ReachableChain (AddLoopRange rs s e)
  | setFrom : ∀ rs f, ReachableChain rs → SetFromPre rs = true →
      ReachableChain (SetFrom rs f)
  | splitLeft : ∀ rs p a b, ReachableChain rs → SplitAtPre rs p = true →
      SplitAt rs p = some (a, b) → ReachableChain a
  | splitRight : ∀ rs p a b, ReachableChain rs → SplitAtPre rs p = true →
      SplitAt rs p = some (a, b) → ReachableChain b

/- ===================================================================
   Part 2 . Definitions: Arm64 logical-immediate encoder
   (dex/quick/arm64/utility_arm64.cc)
   =================================================================== -/

/-- Fuel-bounded binary length of a natural number: exact whenever the
value is below `2 ^ fuel`.  Support for the `__builtin_clz(l)` embedding. -/
def szFuel : Nat → Nat → Nat
  | 0, _ => 0
  | fuel + 1, v => if v = 0 then 0 else szFuel fuel (v / 2) + 1

/-- Fuel-bounded count of trailing zero bits, exact for a positive value
below `2 ^ fuel`.  Support for the `__builtin_ctz(l)` embedding. -/
def ctzFuel : Nat → Nat → Nat
  | 0, _ => 0
  | fuel + 1, v => if v % 2 = 1 then 0 else ctzFuel fuel (v / 2) + 1

/-- Fuel-bounded population count, exact for a value below `2 ^ fuel`.
Support for the `__builtin_popcount(l)` embedding. -/
def popCountFuel : Nat → Nat → Nat
  | 0, _ => 0
  | fuel + 1, v => v % 2 + popCountFuel fuel (v / 2)

/-- CountLeadingZeros (utility_arm64.cc:139-141): `__builtin_clzl(value)`
at width 64 when `is_wide`, else `__builtin_clz((uint32_t)value)`. -/
def CountLeadingZeros (is_wide : Bool) (value : Nat) : Nat :=
  if is_wide then 64 - szFuel 64 value else 32 - szFuel 32 (value % 2 ^ 32)

/-- CountTrailingZeros (utility_arm64.cc:143-145). -/
def CountTrailingZeros (is_wide : Bool) (value : Nat) : Nat :=
  if is_wide then ctzFuel 64 value else ctzFuel 32 (value % 2 ^ 32)

/-- CountSetBits (utility_arm64.cc:147-150). -/
def CountSetBits (is_wide : Bool) (value : Nat) : Nat :=
  if is_wide then popCountFuel 64 value else popCountFuel 32 (value % 2 ^ 32)

/-- The iterative loop of Arm64Mir2Lir::EncodeLogicalImmediate
(utility_arm64.cc:204-246).  The five leading arguments are the run
statistics computed once before the loop; `width`, `set_bits` and
`imm_s_fixed` are the mutable loop state.  `fuel` only bounds the number
of halvings for termination (the C++ loop halves `width` down to 2, so 7
always suffices and the fuel is never exhausted from the entry states).
The C++ `unsigned` subtractions `(value & 3) - 1`, `set_bits - 1` and
`width - trail_zero` cannot wrap on any state the entry point reaches
(established by the invariants proved below), so they are rendered as
truncated `Nat` subtraction. -/
def EncLoop (value lead_zero lead_one trail_zero trail_one : Nat) :
    Nat → Nat → Nat → Int → Int
  | 0, _, _, _ => -1
  | fuel + 1, width, set_bits, imm_s_fixed =>
    if width = 2 then
      -- 2. If the value is two bits wide, it can be encoded.
      Int.ofNat ((0 <<< 12) ||| ((value % 4 - 1) <<< 6) ||| 0x3C)
    else
      let n : Nat := if width = 64 then 1 else 0
      let imm_s : Nat :=
        ((imm_s_fixed % 2 ^ 32).toNat ||| (set_bits - 1)) &&& 0x3F
      let imm_r : Nat :=
        if lead_zero + set_bits = width then 0
        else if 0 < lead_zero then width - trail_zero
        else lead_one
      if lead_zero + trail_zero + set_bits = width then
        -- 3. The value is a single run of set bits.
        Int.ofNat ((n <<< 12) ||| (imm_r <<< 6) ||| imm_s)
      else if lead_one + trail_one + (width - set_bits) = width then
        -- 4. The complement of the value is a single run of set bits.
        Int.ofNat ((n <<< 12) ||| (imm_r <<< 6) ||| imm_s)
      else if value &&& (2 ^ (width / 2) - 1) =
          (value >>> (width / 2)) &&& (2 ^ (width / 2) - 1) then
        -- 5. The two halves match: return to step 2 at half width.
        EncLoop value lead_zero lead_one trail_zero trail_one fuel
          (width / 2) (set_bits / 2) (imm_s_fixed / 2)
      else
        -- 6. Otherwise, the value can't be encoded.
        -1

/-- Arm64Mir2Lir::EncodeLogicalImmediate (utility_arm64.cc:161-249).
`value` is reduced modulo `2 ^ 64` (the C++ parameter is `uint64_t`);
`~value` becomes the 64-bit complement, with the 32-bit helpers keeping
only the low half as `(uint32_t)` does. -/
def EncodeLogicalImmediate (is_wide : Bool) (value : Nat) : Int :=
  let v := value % 2 ^ 64
  -- 1. If the value has all set or all clear bits, it can't be encoded.
  if v = 0 ∨ v = 2 ^ 64 - 1 ∨ (is_wide = false ∧ v % 2 ^ 32 = 2 ^ 32 - 1) then
    -1
  else
    let lead_zero := CountLeadingZeros is_wide v
    let lead_one := CountLeadingZeros is_wide (2 ^ 64 - 1 - v)
    let trail_zero := CountTrailingZeros is_wide v
    let trail_one := CountTrailingZeros is_wide (2 ^ 64 - 1 - v)
    let set_bits := CountSetBits is_wide v
    let width : Nat := if is_wide then 64 else 32
    let imm_s_fixed : Int := if is_wide then -128 else -64
    EncLoop v lead_zero lead_one trail_zero trail_one 7 width set_bits
      imm_s_fixed

/-- Rotate-right of a `size`-bit pattern by `r` places (`r < size`): the
"rotated right by R" step of the bitmask-replicate table
(utility_arm64.cc:164-178). -/
def RotateRight (size x r : Nat) : Nat :=
  x / 2 ^ r + x % 2 ^ r * 2 ^ (size - r)

/-- Replicate a `size`-bit chunk over `k` adjacent copies: the "repeated
across a 32 or 64-bit value" step of the same table. -/
def Replicate (size chunk : Nat) : Nat → Nat
  | 0 => 0
  | k + 1 => chunk + 2 ^ size * Replicate size chunk k

/-- Modelled from the spec: `Arm64Mir2Lir::DecodeLogicalImmediate` is not
part of this source slice (the encoder's doc comment names it as the
inverse).  This decoder follows the (N, imms, immr) table reproduced at
utility_arm64.cc:164-178: the size class is read off the leading-one
prefix of `imms` (or 64 when `N` is set), the pattern is the `S+1`
lowest bits set, rotated right by `R` and replicated across `reg_width`
bits. -/
def DecodeLogicalImmediate (reg_width encoded : Nat) : Nat :=
  let n := (encoded >>> 12) &&& 1
  let imm_r := (encoded >>> 6) &&& 0x3F
  let imm_s := encoded &&& 0x3F
  let size : Nat :=
    if n = 1 then 64
    else if imm_s < 32 then 32
    else if imm_s < 48 then 16
    else if imm_s < 56 then 8
    else if imm_s < 60 then 4
    else 2
  let s := imm_s % size
  let r := imm_r % size
  Replicate size (RotateRight size (2 ^ (s + 1) - 1) r) (reg_width / size)

/- ===================================================================
   Definitions: Arm64 LIR emitter slice (claims C6, C7, C8)
   =================================================================== -/

/-- Arm64 opcode names reachable from the embedded emitter functions
(declared in the arm64 LIR header; the enumeration here lists exactly the
opcodes the embedded functions mention). -/
inductive ArmOpcode
  | kA64Brk1d
  | kA64Fmov2sw
  | kA64Fmov2Sx
  | kA64Fmov2fI
  | kA64Ldr2fp
  | kA64Mov2rr
  | kA64Mvn2rr
  | kA64Movn3rdM
  | kA64Movz3rdM
  | kA64Movk3rdM
  | kA64Orr3Rrl
  | kA64Ldr3fXD
  | kA64Ldr3rXD
  | kA64Ldur3fXd
  | kA64Ldur3rXd
  | kA64Ldrh3wXF
  | kA64Ldrsh3rXF
  | kA64Ldrb3wXd
  | kA64Ldrsb3rXd
  | kA64Str3fXD
  | kA64Str3rXD
  | kA64Stur3fXd
  | kA64Stur3rXd
  | kA64Strh3wXF
  | kA64Strb3wXd
  | kA64Ldr4fXxG
  | kA64Ldr4rXxG
  | kA64Ldrh4wXxd
  | kA64Ldrsh4rXxd
  | kA64Ldrb3wXx
  | kA64Ldrsb3rXx
  | kA64Str4fXxG
  | kA64Str4rXxG
  | kA64Strh4wXxd
  | kA64Strb3wXx
  deriving DecidableEq, Repr

/-- An opcode together with its wide (64-bit / FWIDE) flag, modelling the
WIDE/FWIDE opcode-modifier bit of the arm64 LIR encoding. -/
structure WideOp where
  op : ArmOpcode
  wide : Bool
  deriving DecidableEq, Repr

/-- A plain (narrow) opcode, as used when an opcode is passed without the
WIDE/FWIDE modifier. -/
def plain (op : ArmOpcode) : WideOp := ⟨op, false⟩

/-- The WIDE opcode modifier (sets the wide flag). -/
def WIDE (op : ArmOpcode) : WideOp := ⟨op, true⟩

/-- The FWIDE opcode modifier (same wide flag, used on FP opcodes). -/
def FWIDE (op : ArmOpcode) : WideOp := ⟨op, true⟩

/-- One emitted LIR instruction: opcode plus operand list.  Literal-pool
references of pc-relative loads are abstracted to a 0 operand (the claims
track the pool through the emitter state instead). -/
structure LIRInsn where
  opcode : WideOp
  ops : List Int
  deriving DecidableEq, Repr

/-- The emitter state visible to the embedded functions: the list of
instructions appended so far (AppendLIR order), the literal pool
(literal_list_), and the free-temp-register list backing AllocTemp and
FreeTemp. -/
structure EmitState where
  lir : List LIRInsn
  literal_list : List Int
  free_temps : List Nat
  deriving DecidableEq, Repr

/-- NewLIR2/NewLIR3/NewLIR4: build an instruction, append it to the
instruction stream, and return it. -/
def NewLIR (st : EmitState) (op : WideOp) (ops : List Int) :
    EmitState × LIRInsn :=
  let insn : LIRInsn := ⟨op, ops⟩
  ({ st with lir := st.lir ++ [insn] }, insn)

/-- Modelled from the spec: the wzr zero-register operand number from the
arm64 LIR header (the numeral itself is immaterial to the claims). -/
def rwzr : Int := 31

/-- EncodeImmSingle (utility_arm64.cc:25-55).  `bits` is the uint32 input;
note that `(bits <<< 1)` may set bit 32 here where the C++ uint32 shift
drops it, but the following `&&& 0x40000000` only reads bit 30, so the
two agree. -/
def EncodeImmSingle (bits : Nat) : Int :=
  let bits := bits % 2 ^ 32
  if bits &&& 0x0007ffff ≠ 0 then -1
  else
    let b_pattern := (bits >>> 16) &&& 0x3e00
    if b_pattern ≠ 0 ∧ b_pattern ≠ 0x3e00 then -1
    else if (bits ^^^ (bits <<< 1)) &&& 0x40000000 = 0 then -1
    else
      let bit7 := ((bits >>> 31) &&& 0x1) <<< 7
      let bit6 := ((bits >>> 29) &&& 0x1) <<< 6
      let bit5_to_0 := (bits >>> 19) &&& 0x3f
      Int.ofNat (bit7 ||| bit6 ||| bit5_to_0)

/-- EncodeImmDouble (utility_arm64.cc:57-87), with the same remark about
the shift as in EncodeImmSingle. -/
def EncodeImmDouble (bits : Nat) : Int :=
  let bits := bits % 2 ^ 64
  if bits &&& 0xffffffffffff ≠ 0 then -1
  else
    let b_pattern := (bits >>> 48) &&& 0x3fc0
    if b_pattern ≠ 0 ∧ b_pattern ≠ 0x3fc0 then -1
    else if (bits ^^^ (bits <<< 1)) &&& 0x4000000000000000 = 0 then -1
    else
      let bit7 := ((bits >>> 63) &&& 0x1) <<< 7
      let bit6 := ((bits >>> 61) &&& 0x1) <<< 6
      let bit5_to_0 := (bits >>> 48) &&& 0x3f
      Int.ofNat (bit7 ||| bit6 ||| bit5_to_0)

/-- Modelled from the spec: ScanLiteralPool searches the literal pool for
an existing entry with the given value. -/
def ScanLiteralPool (l : List Int) (value : Int) : Bool :=
  l.contains value

/-- Modelled from the spec: ScanLiteralPoolWide searches the pool for an
adjacent (lo, hi) pair. -/
def ScanLiteralPoolWide : List Int → Int → Int → Bool
  | a :: b :: rest, lo, hi =>
    if a = lo ∧ b = hi then true else ScanLiteralPoolWide rest lo hi
  | _, _, _ => false

/-- Modelled from the spec: sign-extraction of the low 32 bits of an
int64 (static_cast to int32_t). -/
def ToSigned32 (v : Int) : Int := (v + 2 ^ 31) % 2 ^ 32 - 2 ^ 31

/-- Modelled from the spec: Low32Bits of utils.h. -/
def Low32Bits (value : Int) : Int := ToSigned32 value

/-- Modelled from the spec: High32Bits of utils.h (arithmetic shift right
by 32, then cast to int32_t; Int division by a positive power of two is
the floor division the arithmetic shift performs). -/
def High32Bits (value : Int) : Int := ToSigned32 (value / 2 ^ 32)

/-- Modelled from the spec: Low16Bits of utils.h (uint16 cast of an
int32). -/
def Low16Bits (value : Int) : Nat := (value % 2 ^ 32).toNat % 2 ^ 16

/-- Modelled from the spec: High16Bits of utils.h (uint16 cast of the
arithmetically shifted int32). -/
def High16Bits (value : Int) : Nat := (value % 2 ^ 32).toNat / 2 ^ 16

/-- The slice of RegStorage the embedded emitter functions read: the
register number and the float/double flags behind IsFloat, IsSingle,
IsDouble and GetReg. -/
structure RegStorage where
  reg : Nat
  is_float : Bool
  is_double : Bool
  deriving DecidableEq, Repr

/-- RegStorage::IsFloat. -/
def RegStorage.IsFloat (r : RegStorage) : Bool := r.is_float

/-- RegStorage::IsDouble. -/
def RegStorage.IsDouble (r : RegStorage) : Bool := r.is_float && r.is_double

/-- RegStorage::IsSingle. -/
def RegStorage.IsSingle (r : RegStorage) : Bool := r.is_float && !r.is_double

/-- RegStorage::GetReg (abstracted to the register number). -/
def RegStorage.GetReg (r : RegStorage) : Nat := r.reg

/-- Arm64Mir2Lir::LoadFPConstantValue (utility_arm64.cc:89-110).  The
uint32 cast of the int32 value is `(value % 2 ^ 32).toNat`; the final
pc-relative load's SetMemRefType only sets metadata and is not
modelled. -/
def LoadFPConstantValue (st : EmitState) (r_dest : Nat) (value : Int) :
    EmitState × LIRInsn :=
  if value = 0 then
    NewLIR st (plain .kA64Fmov2sw) [Int.ofNat r_dest, rwzr]
  else
    let encoded_imm := EncodeImmSingle (value % 2 ^ 32).toNat
    if 0 ≤ encoded_imm then
      NewLIR st (plain .kA64Fmov2fI) [Int.ofNat r_dest, encoded_imm]
    else
      let pool :=
        if ScanLiteralPool st.literal_list value then st.literal_list
        else value :: st.literal_list
      NewLIR { st with literal_list := pool } (plain .kA64Ldr2fp)
        [Int.ofNat r_dest, 0]

/-- Arm64Mir2Lir::LoadFPConstantValueWide (utility_arm64.cc:112-137). -/
def LoadFPConstantValueWide (st : EmitState) (r_dest : Nat) (value : Int) :
    EmitState × LIRInsn :=
  if value = 0 then
    NewLIR st (plain .kA64Fmov2Sx) [Int.ofNat r_dest, rwzr]
  else
    let encoded_imm := EncodeImmDouble (value % 2 ^ 64).toNat
    if 0 ≤ encoded_imm then
      NewLIR st (FWIDE .kA64Fmov2fI) [Int.ofNat r_dest, encoded_imm]
    else
      let val_lo := Low32Bits value
      let val_hi := High32Bits value
      let pool :=
        if ScanLiteralPoolWide st.literal_list val_lo val_hi then
          st.literal_list
        else val_lo :: val_hi :: st.literal_list
      NewLIR { st with literal_list := pool } (FWIDE .kA64Ldr2fp)
        [Int.ofNat r_dest, 0]

/-- Arm64Mir2Lir::LoadConstantNoClobber (utility_arm64.cc:275-332).  The
C++ `~useful_bits` is an int-promoted bitwise NOT of a uint16, i.e.
`-(useful_bits) - 1`; the uint64 conversion of the int argument of
EncodeLogicalImmediate sign-extends, i.e. `(value % 2 ^ 64).toNat`. -/
def LoadConstantNoClobber (st : EmitState) (r_dest : RegStorage)
    (value : Int) : EmitState × LIRInsn :=
  if r_dest.IsFloat then LoadFPConstantValue st r_dest.GetReg value
  else
    let high_bits := High16Bits value
    let low_bits := Low16Bits value
    let low_fast := (low_bits + 1) % 2 ^ 16 ≤ 1
    let high_fast := (high_bits + 1) % 2 ^ 16 ≤ 1
    if low_fast ∨ high_fast then
      if low_bits = high_bits then
        let opcode : ArmOpcode :=
          if low_bits = 0 then .kA64Mov2rr else .kA64Mvn2rr
        NewLIR st (plain opcode) [Int.ofNat r_dest.GetReg, rwzr]
      else
        let shift : Int := if high_fast then 0 else 1
        let uniform_bits := if high_fast then high_bits else low_bits
        let useful_bits := if high_fast then low_bits else high_bits
        if uniform_bits ≠ 0 then
          NewLIR st (plain .kA64Movn3rdM)
            [Int.ofNat r_dest.GetReg, -(Int.ofNat useful_bits) - 1, shift]
        else
          NewLIR st (plain .kA64Movz3rdM)
            [Int.ofNat r_dest.GetReg, Int.ofNat useful_bits, shift]
    else
      let log_imm := EncodeLogicalImmediate false (value % 2 ^ 64).toNat
      if 0 ≤ log_imm then
        NewLIR st (plain .kA64Orr3Rrl)
          [Int.ofNat r_dest.GetReg, rwzr, log_imm]
      else
        let p1 := NewLIR st (plain .kA64Movz3rdM)
          [Int.ofNat r_dest.GetReg, Int.ofNat low_bits, 0]
        let p2 := NewLIR p1.1 (plain .kA64Movk3rdM)
          [Int.ofNat r_dest.GetReg, Int.ofNat high_bits, 1]
        (p2.1, p1.2)

/-- Modelled from the spec: AllocTemp hands out the next free scratch
register from the free list. -/
def AllocTemp (st : EmitState) : EmitState × Nat :=
  match st.free_temps with
  | [] => (st, 0)
  | t :: ts => ({ st with free_temps := ts }, t)

/-- Modelled from the spec: FreeTemp returns a scratch register to the
free list, making it available for reuse. -/
def FreeTemp (st : EmitState) (r : Nat) : EmitState :=
  { st with free_temps := r :: st.free_temps }

/-- Modelled from the spec: LoadConstant materializes a constant into a
register; for a freshly allocated temp it reduces to
LoadConstantNoClobber. -/
def LoadConstant (st : EmitState) (r_dest : RegStorage) (value : Int) :
    EmitState × LIRInsn :=
  LoadConstantNoClobber st r_dest value

/-- The operand-size enumeration used by the load/store helpers. -/
inductive OpSize
  | kWord
  | k64
  | kReference
  | k32
  | kSingle
  | kDouble
  | kUnsignedHalf
  | kSignedHalf
  | kUnsignedByte
  | kSignedByte
  deriving DecidableEq, Repr

/-- Modelled from the spec: IS_SIGNED_IMM9 of the arm64 LIR header — the
displacement fits a signed 9-bit immediate. -/
def IS_SIGNED_IMM9 (value : Int) : Bool :=
  decide (-(2 ^ 8 : Int) ≤ value ∧ value < 2 ^ 8)

/-- The (scale, opcode, alt_opcode) selection switch of
Arm64Mir2Lir::LoadBaseDispBody (utility_arm64.cc:844-889): alt_opcode
stays kA64Brk1d except for the 64-bit operand sizes. -/
def loadDispInfo (size : OpSize) (r_dest : RegStorage) :
    Nat × WideOp × WideOp :=
  match size with
  | .kDouble | .kWord | .k64 =>
    if r_dest.IsFloat then (3, FWIDE .kA64Ldr3fXD, FWIDE .kA64Ldur3fXd)
    else (3, WIDE .kA64Ldr3rXD, WIDE .kA64Ldur3rXd)
  | .kSingle | .k32 | .kReference =>
    if r_dest.IsFloat then (2, plain .kA64Ldr3fXD, plain .kA64Brk1d)
    else (2, plain .kA64Ldr3rXD, plain .kA64Brk1d)
  | .kUnsignedHalf => (1, plain .kA64Ldrh3wXF, plain .kA64Brk1d)
  | .kSignedHalf => (1, plain .kA64Ldrsh3rXF, plain .kA64Brk1d)
  | .kUnsignedByte => (0, plain .kA64Ldrb3wXd, plain .kA64Brk1d)
  | .kSignedByte => (0, plain .kA64Ldrsb3rXd, plain .kA64Brk1d)

/-- The (scale, opcode, alt_opcode) selection switch of
Arm64Mir2Lir::StoreBaseDispBody (utility_arm64.cc:930-969); the source
applies FWIDE to the 64-bit core-register store opcodes as well. -/
def storeDispInfo (size : OpSize) (r_src : RegStorage) :
    Nat × WideOp × WideOp :=
  match size with
  | .kDouble | .kWord | .k64 =>
    if r_src.IsFloat then (3, FWIDE .kA64Str3fXD, FWIDE .kA64Stur3fXd)
    else (3, FWIDE .kA64Str3rXD, FWIDE .kA64Stur3rXd)
  | .kSingle | .k32 | .kReference =>
    if r_src.IsFloat then (2, plain .kA64Str3fXD, plain .kA64Brk1d)
    else (2, plain .kA64Str3rXD, plain .kA64Brk1d)
  | .kUnsignedHalf | .kSignedHalf => (1, plain .kA64Strh3wXF, plain .kA64Brk1d)
  | .kUnsignedByte | .kSignedByte => (0, plain .kA64Strb3wXd, plain .kA64Brk1d)

/-- Arm64Mir2Lir::LoadBaseIndexed (utility_arm64.cc:706-773). -/
def LoadBaseIndexed (st : EmitState) (r_base r_index r_dest : RegStorage)
    (scale : Nat) (size : OpSize) : EmitState × LIRInsn :=
  if r_dest.IsFloat then
    let opcode :=
      if r_dest.IsDouble then FWIDE .kA64Ldr4fXxG else plain .kA64Ldr4fXxG
    NewLIR st opcode [Int.ofNat r_dest.GetReg, Int.ofNat r_base.GetReg,
      Int.ofNat r_index.GetReg, if scale ≠ 0 then 1 else 0]
  else
    let info : WideOp × Nat :=
      match size with
      | .kDouble | .kWord | .k64 => (WIDE .kA64Ldr4rXxG, 3)
      | .kSingle | .k32 | .kReference => (plain .kA64Ldr4rXxG, 2)
      | .kUnsignedHalf => (plain .kA64Ldrh4wXxd, 1)
      | .kSignedHalf => (plain .kA64Ldrsh4rXxd, 1)
      | .kUnsignedByte => (plain .kA64Ldrb3wXx, 0)
      | .kSignedByte => (plain .kA64Ldrsb3rXx, 0)
    if info.2 = 0 then
      NewLIR st info.1 [Int.ofNat r_dest.GetReg, Int.ofNat r_base.GetReg,
        Int.ofNat r_index.GetReg]
    else
      NewLIR st info.1 [Int.ofNat r_dest.GetReg, Int.ofNat r_base.GetReg,
        Int.ofNat r_index.GetReg, if scale ≠ 0 then 1 else 0]

/-- Arm64Mir2Lir::StoreBaseIndexed (utility_arm64.cc:775-834). -/
def StoreBaseIndexed (st : EmitState) (r_base r_index r_src : RegStorage)
    (scale : Nat) (size : OpSize) : EmitState × LIRInsn :=
  if r_src.IsFloat then
    let opcode :=
      if r_src.IsDouble then FWIDE .kA64Str4fXxG else plain .kA64Str4fXxG
    NewLIR st opcode [Int.ofNat r_src.GetReg, Int.ofNat r_base.GetReg,
      Int.ofNat r_index.GetReg, if scale ≠ 0 then 1 else 0]
  else
    let info : WideOp × Nat :=
      match size with
      | .kDouble | .kWord | .k64 => (WIDE .kA64Str4rXxG, 3)
      | .kSingle | .k32 | .kReference => (plain .kA64Str4rXxG, 2)
      | .kUnsignedHalf | .kSignedHalf => (plain .kA64Strh4wXxd, 1)
      | .kUnsignedByte | .kSignedByte => (plain .kA64Strb3wXx, 0)
    if info.2 = 0 then
      NewLIR st info.1 [Int.ofNat r_src.GetReg, Int.ofNat r_base.GetReg,
        Int.ofNat r_index.GetReg]
    else
      NewLIR st info.1 [Int.ofNat r_src.GetReg, Int.ofNat r_base.GetReg,
        Int.ofNat r_index.GetReg, if scale ≠ 0 then 1 else 0]

/-- Arm64Mir2Lir::LoadBaseDispBody (utility_arm64.cc:841-912).  The C++
`displacement & ((1 << scale) - 1)` equals the nonnegative residue
`displacement % 2 ^ scale`, and `displacement >> scale` is the floor
division `displacement / 2 ^ scale`; the trailing AnnotateDalvikRegAccess
on stack-pointer bases only sets metadata and is not modelled. -/
def LoadBaseDispBody (st : EmitState) (r_base : RegStorage)
    (displacement : Int) (r_dest : RegStorage) (size : OpSize) :
    EmitState × LIRInsn :=
  let info := loadDispInfo size r_dest
  let scale := info.1
  let opcode := info.2.1
  let alt_opcode := info.2.2
  let scaled_disp := displacement / (2 ^ scale : Int)
  if displacement % (2 ^ scale : Int) = 0 ∧ 0 ≤ scaled_disp ∧
      scaled_disp < 4096 then
    NewLIR st opcode
      [Int.ofNat r_dest.GetReg, Int.ofNat r_base.GetReg, scaled_disp]
  else if alt_opcode ≠ plain .kA64Brk1d ∧ IS_SIGNED_IMM9 displacement = true
      then
    NewLIR st alt_opcode
      [Int.ofNat r_dest.GetReg, Int.ofNat r_base.GetReg, displacement]
  else
    let p1 := AllocTemp st
    let r_scratch := p1.2
    let p2 := LoadConstant p1.1 ⟨r_scratch, false, false⟩ displacement
    let p3 := LoadBaseIndexed p2.1 r_base ⟨r_scratch, false, false⟩ r_dest 0
      size
    (FreeTemp p3.1 r_scratch, p3.2)

/-- Arm64Mir2Lir::StoreBaseDispBody (utility_arm64.cc:927-993), with the
same remarks as LoadBaseDispBody. -/
def StoreBaseDispBody (st : EmitState) (r_base : RegStorage)
    (displacement : Int) (r_src : RegStorage) (size : OpSize) :
    EmitState × LIRInsn :=
  let info := storeDispInfo size r_src
  let scale := info.1
  let opcode := info.2.1
  let alt_opcode := info.2.2
  let scaled_disp := displacement / (2 ^ scale : Int)
  if displacement % (2 ^ scale : Int) = 0 ∧ 0 ≤ scaled_disp ∧
      scaled_disp < 4096 then
    NewLIR st opcode
      [Int.ofNat r_src.GetReg, Int.ofNat r_base.GetReg, scaled_disp]
  else if alt_opcode ≠ plain .kA64Brk1d ∧ IS_SIGNED_IMM9 displacement = true
      then
    NewLIR st alt_opcode
      [Int.ofNat r_src.GetReg, Int.ofNat r_base.GetReg, displacement]
  else
    let p1 := AllocTemp st
    let r_scratch := p1.2
    let p2 := LoadConstant p1.1 ⟨r_scratch, false, false⟩ displacement
    let p3 := StoreBaseIndexed p2.1 r_base ⟨r_scratch, false, false⟩ r_src 0
      size
    (FreeTemp p3.1 r_scratch, p3.2)

/- ===================================================================
   Definitions: optimizing-compiler graph builder slice (claims C4, C10)
   =================================================================== -/

/-- The dex opcodes HGraphBuilder::AnalyzeDexInstruction has translation
rules for; OTHER stands for every opcode that reaches the switch's
default case (no translation rule). -/
inductive DexOpcode
  | CONST_4
  | CONST_16
  | MOVE
  | RETURN_VOID
  | IF_EQ
  | IF_NE
  | GOTO
  | GOTO_16
  | GOTO_32
  | RETURN
  | RETURN_OBJECT
  | INVOKE_STATIC
  | INVOKE_DIRECT
  | INVOKE_STATIC_RANGE
  | INVOKE_DIRECT_RANGE
  | ADD_INT
  | SUB_INT
  | ADD_INT_2ADDR
  | SUB_INT_2ADDR
  | ADD_INT_LIT16
  | RSUB_INT
  | ADD_INT_LIT8
  | RSUB_INT_LIT8
  | NEW_INSTANCE
  | NOP
  | OTHER
  deriving DecidableEq, Repr

/-- Modelled from the spec: the slice of the decoded dex Instruction the
builder reads — opcode, size in code units, the accessor payloads (vA,
vB, vC and the literal), the branch target offset, the argument
registers of an invoke, and whether the invoked method's return type
descriptor is void (the only part of the method id the builder slice
inspects). -/
structure DexInstruction where
  opcode : DexOpcode
  size : Nat
  vA : Nat
  vB : Nat
  vC : Nat
  lit : Int
  targetOffset : Int
  args : List Nat
  invokeRetVoid : Bool
  deriving DecidableEq, Repr

/-- Modelled from the spec: Instruction::IsBranch of the dex instruction
table — true for the goto and if opcodes of this slice. -/
def IsBranch (op : DexOpcode) : Bool :=
  match op with
  | .IF_EQ | .IF_NE | .GOTO | .GOTO_16 | .GOTO_32 => true
  | _ => false

/-- The H-instruction kinds the builder slice emits into basic blocks. -/
inductive HInstr
  | HLocal (i : Nat)
  | HIntConstant (c : Int)
  | HParameterValue (i : Nat)
  | HStoreLocal (reg : Nat)
  | HLoadLocal (reg : Nat)
  | HEqual
  | HNot
  | HIf
  | HGoto
  | HReturnVoid
  | HReturn
  | HPushArgument (i : Nat)
  | HInvokeStatic (nargs : Nat)
  | HAdd
  | HSub
  | HNewInstance
  | HExit
  deriving DecidableEq, Repr

/-- The builder state threaded through BuildGraph: the current block
(None once a block-terminating instruction was translated), the log of
instructions appended to blocks (block id × instruction, in emission
order; entry block = 0, exit block = 1), the precomputed branch-target
map from dex offset to block id, the blocks added to the graph so far,
the constant-0/1 caches of GetConstant, and the next fresh block id.
Block successor edges are not tracked (no claim reads them). -/
structure BuilderState where
  currentBlock : Option Nat
  emitted : List (Nat × HInstr)
  branchTargets : List (Int × Nat)
  blocksAdded : List Nat
  constant0 : Bool
  constant1 : Bool
  nextBlockId : Nat
  deriving DecidableEq, Repr

/-- Association-list lookup backing FindBlockStartingAt. -/
def btLookup : List (Int × Nat) → Int → Option Nat
  | [], _ => none
  | (k, b) :: rest, i => if k = i then some b else btLookup rest i

/-- HGraphBuilder::FindBlockStartingAt (builder.cc:202-205). -/
def FindBlockStartingAt (st : BuilderState) (index : Int) : Option Nat :=
  btLookup st.branchTargets index

/-- Append one instruction to a block of the graph. -/
def emitIn (st : BuilderState) (b : Nat) (i : HInstr) : BuilderState :=
  { st with emitted := st.emitted ++ [(b, i)] }

/-- HGraphBuilder::GetConstant via GetConstant0/GetConstant1
(builder.cc:420-448): constants 0 and 1 are cached, a first use adds the
HIntConstant to the entry block, any other constant is always added. -/
def GetConstant (st : BuilderState) (c : Int) : BuilderState :=
  if c = 0 then
    if st.constant0 then st
    else { emitIn st 0 (.HIntConstant 0) with constant0 := true }
  else if c = 1 then
    if st.constant1 then st
    else { emitIn st 0 (.HIntConstant 1) with constant1 := true }
  else emitIn st 0 (.HIntConstant c)

/-- HGraphBuilder::UpdateLocal (builder.cc:454-457): appends an
HStoreLocal of the named local to the current block `cb`. -/
def UpdateLocal (st : BuilderState) (cb : Nat) (reg : Nat) : BuilderState :=
  emitIn st cb (.HStoreLocal reg)

/-- HGraphBuilder::LoadLocal (builder.cc:459-463): appends an HLoadLocal
of the named local to the current block `cb`. -/
def LoadLocal (st : BuilderState) (cb : Nat) (reg : Nat) : BuilderState :=
  emitIn st cb (.HLoadLocal reg)

/-- The invoke argument loop of AnalyzeDexInstruction's INVOKE cases:
for each argument register, LoadLocal then an HPushArgument. -/
def invokeArgsLoop (st : BuilderState) (cb : Nat) : List Nat → Nat →
    BuilderState
  | [], _ => st
  | r :: rest, i =>
    invokeArgsLoop (emitIn (LoadLocal st cb r) cb (.HPushArgument i)) cb rest
      (i + 1)

/-- HGraphBuilder::AnalyzeDexInstruction (builder.cc:245-418): none
models returning false (no translation rule, or an invoke of a non-void
method); with no current block it returns true at once (dead code) and
touches nothing.  Successor edges (AddSuccessor) are not tracked. -/
def AnalyzeDexInstruction (st : BuilderState) (insn : DexInstruction)
    (dex_offset : Int) : Option BuilderState :=
  match st.currentBlock with
  | none => some st
  | some cb =>
    match insn.opcode with
    | .CONST_4 => some (UpdateLocal (GetConstant st insn.lit) cb insn.vA)
    | .CONST_16 => some (UpdateLocal (GetConstant st insn.lit) cb insn.vA)
    | .MOVE => some (UpdateLocal (LoadLocal st cb insn.vB) cb insn.vA)
    | .RETURN_VOID =>
      some { emitIn st cb .HReturnVoid with currentBlock := none }
    | .IF_EQ =>
      let st1 := emitIn (LoadLocal (LoadLocal st cb insn.vA) cb insn.vB) cb
        .HEqual
      some { emitIn st1 cb .HIf with currentBlock := none }
    | .IF_NE =>
      let st1 := emitIn (LoadLocal (LoadLocal st cb insn.vA) cb insn.vB) cb
        .HEqual
      some { emitIn (emitIn st1 cb .HNot) cb .HIf with currentBlock := none }
    | .GOTO | .GOTO_16 | .GOTO_32 =>
      some { emitIn st cb .HGoto with currentBlock := none }
    | .RETURN | .RETURN_OBJECT =>
      some { emitIn (LoadLocal st cb insn.vA) cb .HReturn with
        currentBlock := none }
    | .INVOKE_STATIC | .INVOKE_DIRECT =>
      if insn.invokeRetVoid then
        let st1 := invokeArgsLoop st cb insn.args 0
        some (emitIn st1 cb (.HInvokeStatic insn.args.length))
      else none
    | .INVOKE_STATIC_RANGE | .INVOKE_DIRECT_RANGE =>
      if insn.invokeRetVoid then
        let st1 := invokeArgsLoop st cb
          ((List.range insn.args.length).map (fun i => insn.vC + i)) 0
        some (emitIn st1 cb (.HInvokeStatic insn.args.length))
      else none
    | .ADD_INT =>
      some (UpdateLocal
        (emitIn (LoadLocal (LoadLocal st cb insn.vB) cb insn.vC) cb .HAdd)
        cb insn.vA)
    | .SUB_INT =>
      some (UpdateLocal
        (emitIn (LoadLocal (LoadLocal st cb insn.vB) cb insn.vC) cb .HSub)
        cb insn.vA)
    | .ADD_INT_2ADDR =>
      some (UpdateLocal
        (emitIn (LoadLocal (LoadLocal st cb insn.vA) cb insn.vB) cb .HAdd)
        cb insn.vA)
    | .SUB_INT_2ADDR =>
      some (UpdateLocal
        (emitIn (LoadLocal (LoadLocal st cb insn.vA) cb insn.vB) cb .HSub)
        cb insn.vA)
    | .ADD_INT_LIT16 =>
      some (UpdateLocal
        (emitIn (GetConstant (LoadLocal st cb insn.vB) insn.lit) cb .HAdd)
        cb insn.vA)
    | .RSUB_INT =>
      some (UpdateLocal
        (emitIn (GetConstant (LoadLocal st cb insn.vB) insn.lit) cb .HSub)
        cb insn.vA)
    | .ADD_INT_LIT8 =>
      some (UpdateLocal
        (emitIn (GetConstant (LoadLocal st cb insn.vB) insn.lit) cb .HAdd)
        cb insn.vA)
    | .RSUB_INT_LIT8 =>
      some (UpdateLocal
        (emitIn (GetConstant (LoadLocal st cb insn.vB) insn.lit) cb .HSub)
        cb insn.vA)
    | .NEW_INSTANCE =>
      some (UpdateLocal (emitIn st cb .HNewInstance) cb insn.vA)
    | .NOP => some st
    | .OTHER => none

/-- HGraphBuilder::MaybeUpdateCurrentBlock (builder.cc:151-166): if a
block starts at this offset, close the current block with a goto (when
there is one), add the found block to the graph and make it current. -/
def MaybeUpdateCurrentBlock (st : BuilderState) (index : Int) :
    BuilderState :=
  match FindBlockStartingAt st index with
  | none => st
  | some b =>
    let st1 :=
      match st.currentBlock with
      | some cb => emitIn st cb .HGoto
      | none => st
    { st1 with blocksAdded := st1.blocksAdded ++ [b], currentBlock := some b }

/-- The instruction-iteration loop of
HGraphBuilder::ComputeBranchTargets (builder.cc:176-199): for a branch,
create a block at the branch target and, if more code follows, at the
fall-through offset, each only when no block exists there yet. -/
def computeBranchTargetsLoop : List DexInstruction → Int →
    List (Int × Nat) → Nat → List (Int × Nat) × Nat
  | [], _, targets, next => (targets, next)
  | insn :: rest, dex_offset, targets, next =>
    if IsBranch insn.opcode then
      let target := insn.targetOffset + dex_offset
      let p1 :=
        if btLookup targets target = none then
          (targets ++ [(target, next)], next + 1)
        else (targets, next)
      let dex_offset1 := dex_offset + Int.ofNat insn.size
      let p2 :=
        if rest ≠ [] ∧ btLookup p1.1 dex_offset1 = none then
          (p1.1 ++ [(dex_offset1, p1.2)], p1.2 + 1)
        else p1
      computeBranchTargetsLoop rest dex_offset1 p2.1 p2.2
    else
      computeBranchTargetsLoop rest (dex_offset + Int.ofNat insn.size)
        targets next

/-- HGraphBuilder::ComputeBranchTargets (builder.cc:168-200): block ids 0
and 1 are the entry and exit block, the first code block (at offset 0)
gets id 2, later blocks fresh ids. -/
def ComputeBranchTargets (insns : List DexInstruction) :
    List (Int × Nat) × Nat :=
  computeBranchTargetsLoop insns 0 [(0, 2)] 3

/-- HGraphBuilder::CanHandleCodeItem (builder.cc:82-87). -/
def CanHandleCodeItem (triesSize : Nat) : Bool := triesSize = 0

/-- The parameter scan of HGraphBuilder::InitializeParameters
(builder.cc:58-79): one shorty character per remaining parameter starting
at position 1; an F, D or J character aborts with failure, anything else
appends an HParameterValue and an HStoreLocal for the parameter to the
entry block.  A position beyond the shorty is modelled by the non-F/D/J
placeholder 'V'. -/
def paramScanLoop (st : BuilderState) (shorty : List Char) :
    Nat → Nat → Nat → Nat → Option BuilderState
  | _, 0, _, _ => some st
  | pos, Nat.succ m, pidx, lidx =>
    let c := shorty.getD pos 'V'
    if c = 'F' ∨ c = 'D' ∨ c = 'J' then none
    else
      paramScanLoop
        (emitIn (emitIn st 0 (.HParameterValue pidx)) 0 (.HStoreLocal lidx))
        shorty (pos + 1) m (pidx + 1) (lidx + 1)

/-- HGraphBuilder::InitializeParameters (builder.cc:38-80).  `hasDexUnit`
models `dex_compilation_unit_ != nullptr` (it is null only when unit
testing); a non-static method first materializes the implicit `this`
parameter, which consumes one parameter count but no shorty
character. -/
def InitializeParameters (st : BuilderState) (hasDexUnit isStatic : Bool)
    (shorty : List Char) (registersSize number_of_parameters : Nat) :
    Option BuilderState :=
  if hasDexUnit = false then some st
  else
    let locals_index := registersSize - number_of_parameters
    if isStatic then
      paramScanLoop st shorty 1 number_of_parameters 0 locals_index
    else
      let st1 := emitIn (emitIn st 0 (.HParameterValue 0)) 0
        (.HStoreLocal locals_index)
      paramScanLoop st1 shorty 1 (number_of_parameters - 1) 1
        (locals_index + 1)

/-- The code-item fields BuildGraph reads, with the instruction stream
already decoded into a list. -/
structure CodeItem where
  triesSize : Nat
  registersSize : Nat
  insSize : Nat
  outsSize : Nat
  insns : List DexInstruction
  deriving DecidableEq, Repr

/-- The main translation loop of HGraphBuilder::BuildGraph
(builder.cc:134-142): per instruction, MaybeUpdateCurrentBlock at its
offset, then AnalyzeDexInstruction; a false return aborts the whole
build. -/
def buildLoop : BuilderState → List DexInstruction → Int →
    Option BuilderState
  | st, [], _ => some st
  | st, insn :: rest, dex_offset =>
    let st1 := MaybeUpdateCurrentBlock st dex_offset
    match AnalyzeDexInstruction st1 insn dex_offset with
    | none => none
    | some st2 => buildLoop st2 rest (dex_offset + Int.ofNat insn.size)

/-- The builder state BuildGraph sets up before the translation loop:
entry block (id 0) added with one HLocal per dex register
(InitializeLocals), exit block (id 1) created but added only at the end,
branch targets precomputed. -/
def initialBuilderState (ci : CodeItem) : BuilderState :=
  let p := ComputeBranchTargets ci.insns
  { currentBlock := none
    emitted := (List.range ci.registersSize).map (fun i => (0, .HLocal i))
    branchTargets := p.1
    blocksAdded := [0]
    constant0 := false
    constant1 := false
    nextBlockId := p.2 }

/-- HGraphBuilder::BuildGraph (builder.cc:107-149): none models the
nullptr (Unsupported) result; on success the exit block is added last
and receives the HExit, and the entry block its closing HGoto. -/
def BuildGraph (hasDexUnit isStatic : Bool) (shorty : List Char)
    (ci : CodeItem) : Option BuilderState :=
  if CanHandleCodeItem ci.triesSize = false then none
  else
    let st0 := initialBuilderState ci
    match InitializeParameters st0 hasDexUnit isStatic shorty
      ci.registersSize ci.insSize with
    | none => none
    | some st1 =>
      match buildLoop st1 ci.insns 0 with
      | none => none
      | some st2 =>
        some { emitIn (emitIn { st2 with
          blocksAdded := st2.blocksAdded ++ [1] } 1 .HExit) 0 .HGoto with
          currentBlock := st2.currentBlock }

/-- Whether the translation loop, run from `st`, ever presents an
untranslatable opcode (the switch's default case) to
AnalyzeDexInstruction while a current block exists — the situation in
which the source returns false and BuildGraph bails out. -/
def loopMeetsBadOpcode : BuilderState → List DexInstruction → Int → Bool
  | _, [], _ => false
  | st, insn :: rest, dex_offset =>
    let st1 := MaybeUpdateCurrentBlock st dex_offset
    if st1.currentBlock ≠ none ∧ insn.opcode = .OTHER then true
    else
      match AnalyzeDexInstruction st1 insn dex_offset with
      | none => false
      | some st2 => loopMeetsBadOpcode st2 rest (dex_offset + Int.ofNat insn.size)

/-- Whether some scanned parameter character of the shorty is 'F', 'D'
or 'J' (the parameter window InitializeParameters walks: positions
1 .. n where n drops the implicit this of a non-static method). -/
def shortyHasBadParam (isStatic : Bool) (shorty : List Char) (ins : Nat) :
    Bool :=
  (List.range (if isStatic then ins else ins - 1)).any fun i =>
    shorty.getD (1 + i) 'V' = 'F' ∨ shorty.getD (1 + i) 'V' = 'D' ∨
      shorty.getD (1 + i) 'V' = 'J'

/- ===================================================================
   Theorems: range-chain invariants (claims C2, C3, C5)
   =================================================================== -/

theorem chainOrdered_nil : ChainOrdered [] := List.chain'_nil

theorem chainOrdered_singleton (r : LiveRange) : ChainOrdered [r] :=
  List.chain'_singleton r

theorem chainOrdered_cons {r : LiveRange} {rest : RangeChain} :
    ChainOrdered (r :: rest) ↔
      (∀ s, rest.head? = some s → r.end_ < s.start_) ∧ ChainOrdered rest := by
  constructor
  · intro h
    cases rest with
    | nil => exact ⟨fun s hs => (nomatch hs), List.chain'_nil⟩
    | cons s t =>
      rw [ChainOrdered, List.chain'_cons] at h
      exact ⟨fun s' hs' => by cases hs'; exact h.1, h.2⟩
  · intro h
    cases rest with
    | nil => exact chainOrdered_singleton r
    | cons s t =>
      rw [ChainOrdered, List.chain'_cons]
      exact ⟨h.1 s rfl, h.2⟩

theorem chainOrdered_tail {r : LiveRange} {rest : RangeChain}
    (h : ChainOrdered (r :: rest)) : ChainOrdered rest :=
  (chainOrdered_cons.mp h).2

theorem addUse_preserves_ordered (rs : RangeChain) (p sb eb : Nat)
    (ho : ChainOrdered rs) (hp : AddUsePre rs p sb eb = true) :
    ChainOrdered (AddUse rs p sb eb) := by
  cases rs with
  | nil => exact chainOrdered_singleton _
  | cons r rest =>
    simp only [AddUse, AddUsePre] at *
    by_cases h1 : r.start_ = sb
    · rw [if_pos h1]; exact ho
    · by_cases h2 : r.start_ = eb
      · rw [if_neg h1, if_pos h2]
        rcases chainOrdered_cons.mp ho with ⟨hh, ht⟩
        exact chainOrdered_cons.mpr ⟨fun s hs => hh s hs, ht⟩
      · rw [if_neg h1, if_neg h2] at hp ⊢
        simp only [Bool.and_eq_true, decide_eq_true_eq] at hp
        exact chainOrdered_cons.mpr ⟨fun s hs => by cases hs; exact hp.2, ho⟩

theorem addRange_preserves_ordered (rs : RangeChain) (s e : Nat)
    (ho : ChainOrdered rs) (hp : AddRangePre rs s e = true) :
    ChainOrdered (AddRange rs s e) := by
  cases rs with
  | nil => exact chainOrdered_singleton _
  | cons r rest =>
    simp only [AddRange, AddRangePre] at *
    by_cases h1 : r.start_ = e
    · rw [if_pos h1]
      rcases chainOrdered_cons.mp ho with ⟨hh, ht⟩
      exact chainOrdered_cons.mpr ⟨fun t ht' => hh t ht', ht⟩
    · rw [if_neg h1] at hp ⊢
      simp only [Bool.and_eq_true, decide_eq_true_eq] at hp
      exact chainOrdered_cons.mpr ⟨fun t ht' => by cases ht'; exact hp.2, ho⟩

theorem addLoopRange_preserves_ordered (rs : RangeChain) (s e : Nat)
    (ho : ChainOrdered rs) :
    ChainOrdered (AddLoopRange rs s e) := by
  induction rs with
  | nil => exact chainOrdered_singleton _
  | cons r rest ih =>
    simp only [AddLoopRange]
    by_cases h1 : r.end_ < e
    · rw [if_pos h1]
      exact ih (chainOrdered_tail ho)
    · rw [if_neg h1]
      rcases chainOrdered_cons.mp ho with ⟨hh, ht⟩
      exact chainOrdered_cons.mpr ⟨fun t ht' => hh t ht', ht⟩

theorem setFrom_preserves_ordered (rs : RangeChain) (f : Nat)
    (ho : ChainOrdered rs) : ChainOrdered (SetFrom rs f) := by
  cases rs with
  | nil => exact chainOrdered_nil
  | cons r rest =>
    rcases chainOrdered_cons.mp ho with ⟨hh, ht⟩
    exact chainOrdered_cons.mpr ⟨fun t ht' => hh t ht', ht⟩

theorem splitRanges_fst_head (p : Nat) (rs : RangeChain) :
    (splitRanges p rs).1 = [] ∨
      ∃ hd rest t tl, rs = hd :: rest ∧ (splitRanges p rs).1 = t :: tl ∧
        t.start_ = hd.start_ := by
  cases rs with
  | nil => left; rfl
  | cons r rest =>
    simp only [splitRanges]
    by_cases h1 : p ≥ r.end_
    · right
      exact ⟨r, rest, r, (splitRanges p rest).1, rfl, by rw [if_pos h1], rfl⟩
    · by_cases h2 : p ≤ r.start_
      · left; rw [if_neg h1, if_pos h2]
      · right
        exact ⟨r, rest, ⟨r.start_, p⟩, [], rfl, by rw [if_neg h1, if_neg h2], rfl⟩

theorem splitRanges_preserves_ordered (p : Nat) (rs : RangeChain)
    (ho : ChainOrdered rs) :
    ChainOrdered (splitRanges p rs).1 ∧ ChainOrdered (splitRanges p rs).2 := by
  induction rs with
  | nil => exact ⟨chainOrdered_nil, chainOrdered_nil⟩
  | cons r rest ih =>
    simp only [splitRanges]
    by_cases h1 : p ≥ r.end_
    · rw [if_pos h1]
      rcases ih (chainOrdered_tail ho) with ⟨ih1, ih2⟩
      refine ⟨chainOrdered_cons.mpr ⟨?_, ih1⟩, ih2⟩
      intro s hs
      rcases splitRanges_fst_head p rest with hemp | ⟨hd, rest', t, tl, heq, heq2, hstart⟩
      · rw [hemp] at hs; cases hs
      · rw [heq2] at hs
        simp only [List.head?] at hs
        cases hs
        rw [hstart]
        rcases chainOrdered_cons.mp ho with ⟨hh, _⟩
        exact hh hd (by rw [heq]; rfl)
    · by_cases h2 : p ≤ r.start_
      · rw [if_neg h1, if_pos h2]
        exact ⟨chainOrdered_nil, ho⟩
      · rw [if_neg h1, if_neg h2]
        refine ⟨chainOrdered_singleton _, ?_⟩
        rcases chainOrdered_cons.mp ho with ⟨hh, ht⟩
        exact chainOrdered_cons.mpr ⟨fun s hs => hh s hs, ht⟩

theorem splitAt_preserves_ordered (rs : RangeChain) (p : Nat)
    (ho : ChainOrdered rs) {a b : RangeChain}
    (h : SplitAt rs p = some (a, b)) : ChainOrdered a ∧ ChainOrdered b := by
  unfold SplitAt at h
  cases hl : rs.getLast? with
  | none => rw [hl] at h; cases h
  | some last =>
    rw [hl] at h
    by_cases hd : last.end_ ≤ p
    · simp [hd] at h
    · simp only [hd, if_false, Option.some.injEq] at h
      have := splitRanges_preserves_ordered p rs ho
      rw [h] at this
      exact this

/-- C2: after any sequence of AddUse, AddRange, AddLoopRange, SetFrom and
SplitAt operations, each invoked under its documented precondition, the
range chain of the interval and of every sibling produced by SplitAt is
ordered front-to-back: each range ends at or before the next one starts,
and never merely touches it (`range[i].end < range[i+1].start`), so the
ranges are strictly increasing and pairwise disjoint. -/
theorem liveInterval_ranges_ordered (rs : RangeChain)
    (h : ReachableChain rs) : ChainOrdered rs := by
  induction h with
  | nil => exact chainOrdered_nil
  | addUse rs p sb eb _ hp ih => exact addUse_preserves_ordered rs p sb eb ih hp
  | addRange rs s e _ hp ih => exact addRange_preserves_ordered rs s e ih hp
  | addLoopRange rs s e _ _ ih => exact addLoopRange_preserves_ordered rs s e ih
  | setFrom rs f _ _ ih => exact setFrom_preserves_ordered rs f ih
  | splitLeft rs p a b _ _ hs ih => exact (splitAt_preserves_ordered rs p ih hs).1
  | splitRight rs p a b _ _ hs ih => exact (splitAt_preserves_ordered rs p ih hs).2

/-- Witness for C2: a concrete operation sequence (two AddRange calls, a
SetFrom and a SplitAt) reaching an ordered two-sibling state. -/
theorem liveInterval_ranges_ordered_witness :
    ChainOrdered (AddRange (AddRange [] 10 12) 2 4) :=
  liveInterval_ranges_ordered _
    (ReachableChain.addRange _ 2 4
      (ReachableChain.addRange _ 10 12 ReachableChain.nil (by decide))
      (by decide))

theorem covers_iff (rs : RangeChain) (q : Nat) :
    Covers rs q = true ↔ ∃ r ∈ rs, r.start_ ≤ q ∧ q < r.end_ := by
  induction rs with
  | nil => simp [Covers]
  | cons r rest ih =>
    simp only [Covers]
    by_cases h : q ≥ r.start_ ∧ q < r.end_
    · rw [if_pos h]
      simp only [true_iff]
      exact ⟨r, List.mem_cons_self r rest, h.1, h.2⟩
    · rw [if_neg h, ih]
      constructor
      · rintro ⟨r', hm, h1, h2⟩
        exact ⟨r', List.mem_cons_of_mem r hm, h1, h2⟩
      · rintro ⟨r', hm, h1, h2⟩
        rcases List.mem_cons.mp hm with heq | hm'
        · exact absurd ⟨heq ▸ h1, heq ▸ h2⟩ h
        · exact ⟨r', hm', h1, h2⟩

theorem covers_cons_of_tail {r : LiveRange} {rest : RangeChain} {q : Nat}
    (h : Covers rest q = true) : Covers (r :: rest) q = true := by
  rcases (covers_iff rest q).mp h with ⟨r', hm, h1, h2⟩
  exact (covers_iff (r :: rest) q).mpr ⟨r', List.mem_cons_of_mem r hm, h1, h2⟩

theorem covers_append (l1 l2 : RangeChain) (q : Nat) :
    Covers (l1 ++ l2) q = (Covers l1 q || Covers l2 q) := by
  induction l1 with
  | nil => simp [Covers]
  | cons r rest ih =>
    simp only [List.cons_append, Covers]
    by_cases h : q ≥ r.start_ ∧ q < r.end_
    · rw [if_pos h, if_pos h]; rfl
    · rw [if_neg h, if_neg h]; exact ih

theorem starts_ge_head {r : LiveRange} {rest : RangeChain}
    (ho : ChainOrdered (r :: rest)) (hw : RangesWellFormed (r :: rest)) :
    ∀ r' ∈ rest, r.end_ ≤ r'.start_ := by
  induction rest generalizing r with
  | nil => intro r' h; cases h
  | cons s t ih =>
    intro r' hm
    have hrs : r.end_ < s.start_ := (chainOrdered_cons.mp ho).1 s rfl
    rcases List.mem_cons.mp hm with heq | hm'
    · subst heq; omega
    · have hs : s.end_ ≤ r'.start_ := by
        refine ih (chainOrdered_tail ho) ?_ r' hm'
        intro x hx; exact hw x (List.mem_cons_of_mem r hx)
      have hsw : s.start_ < s.end_ := hw s (by simp)
      omega

theorem member_start_ge {o : LiveRange} {os : RangeChain}
    (ho : ChainOrdered (o :: os)) (hw : RangesWellFormed (o :: os)) :
    ∀ o' ∈ o :: os, o.start_ ≤ o'.start_ := by
  intro o' hm
  rcases List.mem_cons.mp hm with heq | hm'
  · subst heq; exact Nat.le_refl _
  · have h1 := starts_ge_head ho hw o' hm'
    have h2 : o.start_ < o.end_ := hw o (by simp)
    omega

theorem covers_ge_head_start {o : LiveRange} {os : RangeChain} {q : Nat}
    (ho : ChainOrdered (o :: os)) (hw : RangesWellFormed (o :: os))
    (h : Covers (o :: os) q = true) : o.start_ ≤ q := by
  rcases (covers_iff _ q).mp h with ⟨r', hm, h1, h2⟩
  have := member_start_ge ho hw r' hm
  omega

theorem wellFormed_tail {r : LiveRange} {rest : RangeChain}
    (hw : RangesWellFormed (r :: rest)) : RangesWellFormed rest :=
  fun x hx => hw x (List.mem_cons_of_mem r hx)

theorem splitRanges_covers (p : Nat) (rs : RangeChain)
    (ho : ChainOrdered rs) (hw : RangesWellFormed rs) :
    (∀ q, Covers (splitRanges p rs).1 q = true ↔ Covers rs q = true ∧ q < p) ∧
    (∀ q, Covers (splitRanges p rs).2 q = true ↔ Covers rs q = true ∧ p ≤ q) := by
  induction rs with
  | nil => simp [splitRanges, Covers]
  | cons r rest ih =>
    simp only [splitRanges]
    by_cases h1 : p ≥ r.end_
    · rw [if_pos h1]
      rcases ih (chainOrdered_tail ho) (wellFormed_tail hw) with ⟨ih1, ih2⟩
      constructor
      · intro q
        rw [covers_iff, covers_iff (r :: rest) q]
        simp only [List.mem_cons]
        constructor
        · rintro ⟨r', hm, ha, hb⟩
          rcases hm with heq | hm'
          · subst heq
            exact ⟨⟨r', Or.inl rfl, ha, hb⟩, by omega⟩
          · have := (ih1 q).mp ((covers_iff _ q).mpr ⟨r', hm', ha, hb⟩)
            rcases (covers_iff rest q).mp this.1 with ⟨r'', hm'', ha'', hb''⟩
            exact ⟨⟨r'', Or.inr hm'', ha'', hb''⟩, this.2⟩
        · rintro ⟨⟨r', hm, ha, hb⟩, hq⟩
          rcases hm with heq | hm'
          · subst heq; exact ⟨r', Or.inl rfl, ha, hb⟩
          · have := (ih1 q).mpr ⟨(covers_iff rest q).mpr ⟨r', hm', ha, hb⟩, hq⟩
            rcases (covers_iff _ q).mp this with ⟨r'', hm'', ha'', hb''⟩
            exact ⟨r'', Or.inr hm'', ha'', hb''⟩
      · intro q
        rw [ih2 q]
        constructor
        · rintro ⟨hc, hq⟩
          exact ⟨covers_cons_of_tail hc, hq⟩
        · rintro ⟨hc, hq⟩
          rcases (covers_iff _ q).mp hc with ⟨r', hm, ha, hb⟩
          rcases List.mem_cons.mp hm with heq | hm'
          · subst heq; omega
          · exact ⟨(covers_iff rest q).mpr ⟨r', hm', ha, hb⟩, hq⟩
    · by_cases h2 : p ≤ r.start_
      · rw [if_neg h1, if_pos h2]
        have hkey : ∀ q, Covers (r :: rest) q = true → p ≤ q := by
          intro q hc
          have := covers_ge_head_start ho hw hc
          omega
        constructor
        · intro q
          constructor
          · intro hc
            exact absurd hc (by simp [Covers])
          · rintro ⟨hc, hq⟩
            exact absurd (hkey q hc) (by omega)
        · intro q
          exact ⟨fun hc => ⟨hc, hkey q hc⟩, fun hc => hc.1⟩
      · rw [if_neg h1, if_neg h2]
        have hrw : r.start_ < r.end_ := hw r (by simp)
        have hrest : ∀ q, Covers rest q = true → r.end_ ≤ q := by
          intro q hc
          cases rest with
          | nil => simp [Covers] at hc
          | cons s t =>
            have h1' := covers_ge_head_start (chainOrdered_tail ho)
              (wellFormed_tail hw) hc
            have h2' := (chainOrdered_cons.mp ho).1 s rfl
            omega
        constructor
        · intro q
          rw [covers_iff, covers_iff (r :: rest) q]
          simp only [List.mem_cons, List.mem_singleton, List.not_mem_nil,
            or_false]
          constructor
          · rintro ⟨r', heq, ha, hb⟩
            rw [heq] at ha hb
            have ha' : r.start_ ≤ q := ha
            have hb' : q < p := hb
            exact ⟨⟨r, Or.inl rfl, ha', by omega⟩, hb'⟩
          · rintro ⟨⟨r', hm, ha, hb⟩, hq⟩
            rcases hm with heq | hm'
            · refine ⟨⟨r.start_, p⟩, rfl, ?_, ?_⟩
              · show r.start_ ≤ q
                rw [heq] at ha; exact ha
              · show q < p
                exact hq
            · have := hrest q ((covers_iff rest q).mpr ⟨r', hm', ha, hb⟩)
              omega
        · intro q
          rw [covers_iff, covers_iff (r :: rest) q]
          simp only [List.mem_cons]
          constructor
          · rintro ⟨r', hm, ha, hb⟩
            rcases hm with heq | hm'
            · rw [heq] at ha hb
              have ha' : p ≤ q := ha
              have hb' : q < r.end_ := hb
              exact ⟨⟨r, Or.inl rfl, by omega, hb'⟩, ha'⟩
            · have hge := hrest q ((covers_iff rest q).mpr ⟨r', hm', ha, hb⟩)
              exact ⟨⟨r', Or.inr hm', ha, hb⟩, by omega⟩
          · rintro ⟨⟨r', hm, ha, hb⟩, hq⟩
            rcases hm with heq | hm'
            · rw [heq] at ha hb
              refine ⟨⟨p, r.end_⟩, Or.inl rfl, ?_, ?_⟩
              · show p ≤ q
                exact hq
              · show q < r.end_
                exact hb
            · exact ⟨r', Or.inr hm', ha, hb⟩

/-- C3: on an unsplit interval, with `position` strictly after the
interval's start, SplitAt returns the "no split" result exactly when the
interval is already dead at `position`; otherwise it returns a sibling
such that the original now covers exactly the previously covered
positions below `position` and the sibling exactly those at or above it
(no gap or overlap at `position`, whether it falls inside a range or in a
hole). -/
theorem splitAt_partitions (rs : RangeChain) (p : Nat)
    (hne : rs ≠ []) (ho : ChainOrdered rs) (hw : RangesWellFormed rs)
    (hp : GetStartI rs < p) :
    (IsDeadAt rs p = true → SplitAt rs p = none) ∧
    (IsDeadAt rs p = false → ∃ a b, SplitAt rs p = some (a, b) ∧
      (∀ q, Covers a q = true ↔ Covers rs q = true ∧ q < p) ∧
      (∀ q, Covers b q = true ↔ Covers rs q = true ∧ p ≤ q)) := by
  cases hl : rs.getLast? with
  | none =>
    exact absurd (List.getLast?_eq_none_iff.mp hl) hne
  | some last =>
    have hIs : IsDeadAt rs p = decide (last.end_ ≤ p) := by
      unfold IsDeadAt; rw [hl]
    have hSp : SplitAt rs p =
        if last.end_ ≤ p then none else some (splitRanges p rs) := by
      unfold SplitAt; rw [hl]
    rw [hIs, hSp]
    by_cases hd : last.end_ ≤ p
    · refine ⟨fun _ => by rw [if_pos hd], fun hfalse => ?_⟩
      simp [hd] at hfalse
    · refine ⟨fun htrue => ?_, fun _ => ?_⟩
      · simp [hd] at htrue
      · rw [if_neg hd]
        rcases splitRanges_covers p rs ho hw with ⟨h1, h2⟩
        exact ⟨(splitRanges p rs).1, (splitRanges p rs).2, rfl, h1, h2⟩

/-- Witness for C3: splitting the two-range chain `[2,6) [8,12)` at the
hole boundary position 7. -/
theorem splitAt_partitions_witness :
    ∃ a b, SplitAt [⟨2, 6⟩, ⟨8, 12⟩] 7 = some (a, b) ∧
      (∀ q, Covers a q = true ↔ Covers [⟨2, 6⟩, ⟨8, 12⟩] q = true ∧ q < 7) ∧
      (∀ q, Covers b q = true ↔ Covers [⟨2, 6⟩, ⟨8, 12⟩] q = true ∧ 7 ≤ q) :=
  (splitAt_partitions [⟨2, 6⟩, ⟨8, 12⟩] 7 (by decide) (by decide)
    (by decide) (by decide)).2 (by decide)

theorem firstIntersectionLoop_spec (my other : RangeChain)
    (hoM : ChainOrdered my) (hwM : RangesWellFormed my)
    (hoO : ChainOrdered other) (hwO : RangesWellFormed other) :
    (∀ q, firstIntersectionLoop my other = some q →
      Covers my q = true ∧ Covers other q = true ∧
      (∀ q', Covers my q' = true → Covers other q' = true → q ≤ q')) ∧
    (firstIntersectionLoop my other = none →
      ∀ m ∈ my, ∀ o ∈ other, IntersectsWith m o = false) := by
  induction my, other using firstIntersectionLoop.induct with
  | case1 other =>
    constructor
    · intro q h; simp [firstIntersectionLoop] at h
    · intro _ m hm; cases hm
  | case2 my hne =>
    constructor
    · intro q h
      cases my with
      | nil => simp [firstIntersectionLoop] at h
      | cons m ms => simp [firstIntersectionLoop] at h
    · intro _ m _ o ho; cases ho
  | case3 m ms o os hI =>
    have hfi : firstIntersectionLoop (m :: ms) (o :: os) =
        some (max m.start_ o.start_) := by
      rw [firstIntersectionLoop, if_pos hI]
    have hwm : m.start_ < m.end_ := hwM m (by simp)
    have hwo : o.start_ < o.end_ := hwO o (by simp)
    have hI' : (m.start_ ≥ o.start_ ∧ m.start_ < o.end_) ∨
        (o.start_ ≥ m.start_ ∧ o.start_ < m.end_) := by
      simpa [IntersectsWith, Bool.or_eq_true, Bool.and_eq_true,
        decide_eq_true_eq] using hI
    constructor
    · intro q h
      rw [hfi] at h
      cases h
      refine ⟨?_, ?_, ?_⟩
      · refine (covers_iff _ _).mpr ⟨m, by simp, ?_, ?_⟩ <;> omega
      · refine (covers_iff _ _).mpr ⟨o, by simp, ?_, ?_⟩ <;> omega
      · intro q' h1 h2
        have := covers_ge_head_start hoM hwM h1
        have := covers_ge_head_start hoO hwO h2
        omega
    · intro h
      rw [hfi] at h
      cases h
  | case4 m ms o os hI hB ih =>
    have hfi : firstIntersectionLoop (m :: ms) (o :: os) =
        firstIntersectionLoop ms (o :: os) := by
      rw [firstIntersectionLoop, if_neg (by simp [hI]), if_pos hB]
    have hwm : m.start_ < m.end_ := hwM m (by simp)
    have hBle : m.end_ ≤ o.start_ := by
      simpa [IsBefore, decide_eq_true_eq] using hB
    rcases ih (chainOrdered_tail hoM) (wellFormed_tail hwM) hoO hwO with
      ⟨ihS, ihN⟩
    constructor
    · intro q h
      rw [hfi] at h
      rcases ihS q h with ⟨hc1, hc2, hmin⟩
      refine ⟨covers_cons_of_tail hc1, hc2, ?_⟩
      intro q' h1 h2
      have hO := covers_ge_head_start hoO hwO h2
      rcases (covers_iff _ _).mp h1 with ⟨r', hm', ha', hb'⟩
      rcases List.mem_cons.mp hm' with heq | hm''
      · subst heq; omega
      · exact hmin q' ((covers_iff _ _).mpr ⟨r', hm'', ha', hb'⟩) h2
    · intro h
      rw [hfi] at h
      intro m' hm' o' ho'
      rcases List.mem_cons.mp hm' with heq | hm''
      · subst heq
        have h1 := member_start_ge hoO hwO o' ho'
        have h2 : o'.start_ < o'.end_ := hwO o' ho'
        simp only [IntersectsWith, Bool.or_eq_false_iff, Bool.and_eq_false_iff]
        constructor
        · left; simp only [decide_eq_false_iff_not]; omega
        · right; simp only [decide_eq_false_iff_not]; omega
      · exact ihN h m' hm'' o' ho'
  | case5 m ms o os hI hB ih =>
    have hfi : firstIntersectionLoop (m :: ms) (o :: os) =
        firstIntersectionLoop (m :: ms) os := by
      rw [firstIntersectionLoop, if_neg (by simp [hI]), if_neg (by simp [hB])]
    have hwm : m.start_ < m.end_ := hwM m (by simp)
    have hwo : o.start_ < o.end_ := hwO o (by simp)
    have hOle : o.end_ ≤ m.start_ := by
      have hI' : ¬ ((m.start_ ≥ o.start_ ∧ m.start_ < o.end_) ∨
          (o.start_ ≥ m.start_ ∧ o.start_ < m.end_)) := by
        intro hcontra
        exact hI (by
          simpa [IntersectsWith, Bool.or_eq_true, Bool.and_eq_true,
            decide_eq_true_eq] using hcontra)
      have hB' : ¬ (m.end_ ≤ o.start_) := by
        simpa [IsBefore, decide_eq_true_eq] using hB
      omega
    rcases ih hoM hwM (chainOrdered_tail hoO) (wellFormed_tail hwO) with
      ⟨ihS, ihN⟩
    constructor
    · intro q h
      rw [hfi] at h
      rcases ihS q h with ⟨hc1, hc2, hmin⟩
      refine ⟨hc1, covers_cons_of_tail hc2, ?_⟩
      intro q' h1 h2
      have hM := covers_ge_head_start hoM hwM h1
      rcases (covers_iff _ _).mp h2 with ⟨r', hm', ha', hb'⟩
      rcases List.mem_cons.mp hm' with heq | hm''
      · subst heq; omega
      · exact hmin q' h1 ((covers_iff _ _).mpr ⟨r', hm'', ha', hb'⟩)
    · intro h
      rw [hfi] at h
      intro m' hm' o' ho'
      rcases List.mem_cons.mp ho' with heq | ho''
      · subst heq
        have h1 := member_start_ge hoM hwM m' hm'
        have h2 : m'.start_ < m'.end_ := hwM m' hm'
        simp only [IntersectsWith, Bool.or_eq_false_iff, Bool.and_eq_false_iff]
        constructor
        · right; simp only [decide_eq_false_iff_not]; omega
        · left; simp only [decide_eq_false_iff_not]; omega
      · exact ihN h m' hm' o' ho''

theorem skipRangesBefore_decomp (s : Nat) (rs : RangeChain) :
    ∃ dropped, rs = dropped ++ skipRangesBefore s rs ∧
      ∀ r ∈ dropped, r.start_ < s := by
  induction rs with
  | nil => exact ⟨[], rfl, fun r h => nomatch h⟩
  | cons r rest ih =>
    by_cases h : r.start_ ≥ s
    · exact ⟨[], by simp [skipRangesBefore, h], fun r' h' => nomatch h'⟩
    · rcases ih with ⟨dropped, heq, hlt⟩
      refine ⟨r :: dropped, ?_, ?_⟩
      · simp only [skipRangesBefore, if_neg h, List.cons_append]
        rw [← heq]
      · intro r' h'
        rcases List.mem_cons.mp h' with heq' | h''
        · subst heq'; omega
        · exact hlt r' h''

/-- C5: under the documented precondition (this interval does not cover
the other's start, and starts at or before it), FirstIntersectionWith
returns a position only if both intervals cover it and it is the earliest
position covered by both; and it returns the `kNoLifetime` sentinel only
if no range of this interval overlaps any range of the other. -/
theorem firstIntersectionWith_spec (A B : RangeChain)
    (hoA : ChainOrdered A) (hwA : RangesWellFormed A)
    (hoB : ChainOrdered B) (hwB : RangesWellFormed B)
    (hcov : Covers A (GetStartI B) = false)
    (hstart : GetStartI A ≤ GetStartI B) :
    (∀ q, FirstIntersectionWith A B = some q →
      Covers A q = true ∧ Covers B q = true ∧
      (∀ q', Covers A q' = true → Covers B q' = true → q ≤ q')) ∧
    (FirstIntersectionWith A B = none →
      ∀ ra ∈ A, ∀ rb ∈ B, IntersectsWith ra rb = false) := by
  cases B with
  | nil =>
    constructor
    · intro q h; simp [FirstIntersectionWith] at h
    · intro _ ra _ rb hb; cases hb
  | cons o os =>
    have hB : GetStartI (o :: os) = o.start_ := rfl
    rw [hB] at hcov
    have hun : FirstIntersectionWith A (o :: os) =
        firstIntersectionLoop (skipRangesBefore o.start_ A) (o :: os) := rfl
    rcases skipRangesBefore_decomp o.start_ A with ⟨dropped, hdec, hdlt⟩
    have hoK : ChainOrdered (skipRangesBefore o.start_ A) := by
      have := hdec ▸ hoA
      exact List.Chain'.right_of_append this
    have hwK : RangesWellFormed (skipRangesBefore o.start_ A) := by
      intro r hr
      exact hwA r (by rw [hdec]; exact List.mem_append_right _ hr)
    have hnocover : ∀ r ∈ A, ¬ (r.start_ ≤ o.start_ ∧ o.start_ < r.end_) := by
      intro r hr hcontra
      have : Covers A o.start_ = true :=
        (covers_iff _ _).mpr ⟨r, hr, hcontra.1, hcontra.2⟩
      rw [hcov] at this
      cases this
    have hdend : ∀ r ∈ dropped, r.end_ ≤ o.start_ := by
      intro r hr
      have h1 := hdlt r hr
      have h2 := hnocover r (by rw [hdec]; exact List.mem_append_left _ hr)
      omega
    rcases firstIntersectionLoop_spec (skipRangesBefore o.start_ A) (o :: os)
      hoK hwK hoB hwB with ⟨hS, hN⟩
    constructor
    · intro q h
      rw [hun] at h
      rcases hS q h with ⟨hc1, hc2, hmin⟩
      have hcA : Covers A q = true := by
        rw [hdec, covers_append, hc1, Bool.or_true]
      refine ⟨hcA, hc2, ?_⟩
      intro q' h1 h2
      have hgeB := covers_ge_head_start hoB hwB h2
      have h1' : Covers (skipRangesBefore o.start_ A) q' = true := by
        rw [hdec, covers_append, Bool.or_eq_true] at h1
        rcases h1 with hd | hk
        · exfalso
          rcases (covers_iff _ _).mp hd with ⟨r, hr, ha, hb⟩
          have := hdend r hr
          omega
        · exact hk
      exact hmin q' h1' h2
    · intro h ra hra rb hrb
      rw [hun] at h
      rw [hdec] at hra
      rcases List.mem_append.mp hra with hd | hk
      · have h1 := hdend ra hd
        have h2 : ra.start_ < ra.end_ :=
          hwA ra (by rw [hdec]; exact List.mem_append_left _ hd)
        have h3 := member_start_ge hoB hwB rb hrb
        have h4 : rb.start_ < rb.end_ := hwB rb hrb
        simp only [IntersectsWith, Bool.or_eq_false_iff, Bool.and_eq_false_iff]
        constructor
        · left; simp only [decide_eq_false_iff_not]; omega
        · right; simp only [decide_eq_false_iff_not]; omega
      · exact hN h ra hk rb hrb

/-- Witness for C5: concrete intervals `A = [0,2) ∪ [10,14)` and
`B = [4,6) ∪ [11,12)`; their first intersection is position 11. -/
theorem firstIntersectionWith_spec_witness :
    Covers [(⟨0, 2⟩ : LiveRange), ⟨10, 14⟩] 11 = true ∧
    Covers [(⟨4, 6⟩ : LiveRange), ⟨11, 12⟩] 11 = true ∧
    (∀ q', Covers [(⟨0, 2⟩ : LiveRange), ⟨10, 14⟩] q' = true →
      Covers [(⟨4, 6⟩ : LiveRange), ⟨11, 12⟩] q' = true → 11 ≤ q') :=
  (firstIntersectionWith_spec [⟨0, 2⟩, ⟨10, 14⟩] [⟨4, 6⟩, ⟨11, 12⟩]
    (by decide) (by decide) (by decide) (by decide) (by decide) (by decide)).1
    11 (by simp [FirstIntersectionWith, skipRangesBefore, firstIntersectionLoop,
      IntersectsWith, IsBefore])

/- ===================================================================
   Theorems: bit-count characterizations for the logical-immediate proof
   =================================================================== -/

theorem popCountFuel_zero (f : Nat) : popCountFuel f 0 = 0 := by
  induction f with
  | zero => rfl
  | succ f ih => simp [popCountFuel, ih]

theorem szFuel_le (f : Nat) : ∀ v, szFuel f v ≤ f := by
  induction f with
  | zero => intro v; exact Nat.le_refl 0
  | succ f ih =>
    intro v
    by_cases hv : v = 0
    · simp [szFuel, hv]
    · simp only [szFuel, if_neg hv]
      exact Nat.succ_le_succ (ih _)

theorem szFuel_lt_exp (f : Nat) : ∀ v, v < 2 ^ f → v < 2 ^ szFuel f v := by
  induction f with
  | zero => intro v h; simpa [szFuel] using h
  | succ f ih =>
    intro v h
    by_cases hv : v = 0
    · subst hv; simp [szFuel]
    · simp only [szFuel, if_neg hv]
      have hp : (2 : Nat) ^ (f + 1) = 2 * 2 ^ f := by ring
      have h2 : v / 2 < 2 ^ f := by omega
      have h3 := ih (v / 2) h2
      have hp2 : (2 : Nat) ^ (szFuel f (v / 2) + 1) = 2 * 2 ^ szFuel f (v / 2) := by
        ring
      omega

theorem szFuel_le_bound (f : Nat) : ∀ s v, v < 2 ^ s → szFuel f v ≤ s := by
  induction f with
  | zero => intro s v _; exact Nat.zero_le s
  | succ f ih =>
    intro s v h
    by_cases hv : v = 0
    · simp [szFuel, hv]
    · simp only [szFuel, if_neg hv]
      cases s with
      | zero => simp at h; omega
      | succ s =>
        have hp : (2 : Nat) ^ (s + 1) = 2 * 2 ^ s := by ring
        have h2 : v / 2 < 2 ^ s := by omega
        exact Nat.succ_le_succ (ih s (v / 2) h2)

theorem popCount_le_sz (f : Nat) : ∀ v, popCountFuel f v ≤ szFuel f v := by
  induction f with
  | zero => intro v; exact Nat.le_refl 0
  | succ f ih =>
    intro v
    by_cases hv : v = 0
    · simp [szFuel, hv, popCountFuel, popCountFuel_zero]
    · simp only [szFuel, popCountFuel, if_neg hv]
      have h1 := ih (v / 2)
      have h2 : v % 2 ≤ 1 := by omega
      omega

theorem popCount_full : ∀ s f v, v < 2 ^ s → popCountFuel f v = s →
    v = 2 ^ s - 1 := by
  intro s
  induction s with
  | zero => intro f v h _; omega
  | succ s ih =>
    intro f v h hp
    cases f with
    | zero => simp [popCountFuel] at hp
    | succ f =>
      simp only [popCountFuel] at hp
      have hps : (2 : Nat) ^ (s + 1) = 2 * 2 ^ s := by ring
      have hdiv : v / 2 < 2 ^ s := by omega
      by_cases hm : v % 2 = 1
      · have hpop : popCountFuel f (v / 2) = s := by omega
        have := ih f (v / 2) hdiv hpop
        omega
      · have h1 := popCount_le_sz f (v / 2)
        have h2 := szFuel_le_bound f s (v / 2) hdiv
        omega

theorem popCount_pos (f : Nat) : ∀ v, 0 < v → v < 2 ^ f →
    0 < popCountFuel f v := by
  induction f with
  | zero => intro v h1 h2; simp at h2; omega
  | succ f ih =>
    intro v h1 h2
    simp only [popCountFuel]
    by_cases hm : v % 2 = 1
    · omega
    · have hp : (2 : Nat) ^ (f + 1) = 2 * 2 ^ f := by ring
      have h3 : 0 < v / 2 := by omega
      have h4 : v / 2 < 2 ^ f := by omega
      have := ih (v / 2) h3 h4
      omega

theorem szFuel_decomp : ∀ m k a b, a < 2 ^ m → 0 < b →
    szFuel (m + k) (a + 2 ^ m * b) = m + szFuel k b := by
  intro m
  induction m with
  | zero =>
    intro k a b ha _
    have : a = 0 := by simpa using ha
    subst this
    simp
  | succ m ih =>
    intro k a b ha hb
    have hp : (2 : Nat) ^ (m + 1) = 2 * 2 ^ m := by ring
    have hbpos : 0 < 2 ^ (m + 1) * b := by positivity
    have hv : a + 2 ^ (m + 1) * b ≠ 0 := by omega
    have harr : m + 1 + k = (m + k) + 1 := by omega
    rw [harr]
    simp only [szFuel, if_neg hv]
    have hdiv : (a + 2 ^ (m + 1) * b) / 2 = a / 2 + 2 ^ m * b := by
      have : 2 ^ (m + 1) * b = 2 * (2 ^ m * b) := by rw [hp]; ring
      omega
    rw [hdiv, ih k (a / 2) b (by omega) hb]
    omega

theorem ctzFuel_decomp : ∀ m k a b, 0 < a → a < 2 ^ m →
    ctzFuel (m + k) (a + 2 ^ m * b) = ctzFuel m a := by
  intro m
  induction m with
  | zero => intro k a b h1 h2; simp at h2; omega
  | succ m ih =>
    intro k a b h1 h2
    have hp : (2 : Nat) ^ (m + 1) = 2 * 2 ^ m := by ring
    have harr : m + 1 + k = (m + k) + 1 := by omega
    rw [harr]
    have hmod : (a + 2 ^ (m + 1) * b) % 2 = a % 2 := by
      have : 2 ^ (m + 1) * b = 2 * (2 ^ m * b) := by rw [hp]; ring
      omega
    by_cases hm : a % 2 = 1
    · have hm' : (a + 2 ^ (m + 1) * b) % 2 = 1 := by omega
      simp only [ctzFuel]
      rw [if_pos hm', if_pos hm]
    · have hm0 : (a + 2 ^ (m + 1) * b) % 2 ≠ 1 := by omega
      simp only [ctzFuel, if_neg hm0, if_neg hm]
      have hdiv : (a + 2 ^ (m + 1) * b) / 2 = a / 2 + 2 ^ m * b := by
        have : 2 ^ (m + 1) * b = 2 * (2 ^ m * b) := by rw [hp]; ring
        omega
      rw [hdiv, ih k (a / 2) b (by omega) (by omega)]

theorem popCountFuel_decomp : ∀ m k a b, a < 2 ^ m →
    popCountFuel (m + k) (a + 2 ^ m * b) =
      popCountFuel m a + popCountFuel k b := by
  intro m
  induction m with
  | zero =>
    intro k a b ha
    have : a = 0 := by simpa using ha
    subst this
    simp [popCountFuel]
  | succ m ih =>
    intro k a b ha
    have hp : (2 : Nat) ^ (m + 1) = 2 * 2 ^ m := by ring
    have harr : m + 1 + k = (m + k) + 1 := by omega
    rw [harr]
    simp only [popCountFuel]
    have hmod : (a + 2 ^ (m + 1) * b) % 2 = a % 2 := by
      have : 2 ^ (m + 1) * b = 2 * (2 ^ m * b) := by rw [hp]; ring
      omega
    have hdiv : (a + 2 ^ (m + 1) * b) / 2 = a / 2 + 2 ^ m * b := by
      have : 2 ^ (m + 1) * b = 2 * (2 ^ m * b) := by rw [hp]; ring
      omega
    rw [hmod, hdiv, ih k (a / 2) b (by omega)]
    omega

theorem ctzFuel_odd (k b : Nat) (h : b % 2 = 1) : ctzFuel k b = 0 := by
  cases k with
  | zero => rfl
  | succ k => simp [ctzFuel, h]

theorem ctzFuel_shift : ∀ t k b, b % 2 = 1 → ctzFuel (t + k) (2 ^ t * b) = t := by
  intro t
  induction t with
  | zero =>
    intro k b h
    simpa using ctzFuel_odd k b h
  | succ t ih =>
    intro k b h
    have hp : (2 : Nat) ^ (t + 1) = 2 * 2 ^ t := by ring
    have harr : t + 1 + k = (t + k) + 1 := by omega
    rw [harr]
    have hmod : (2 ^ (t + 1) * b) % 2 ≠ 1 := by
      have : 2 ^ (t + 1) * b = 2 * (2 ^ t * b) := by rw [hp]; ring
      omega
    simp only [ctzFuel, if_neg hmod]
    have hdiv : (2 ^ (t + 1) * b) / 2 = 2 ^ t * b := by
      have : 2 ^ (t + 1) * b = 2 * (2 ^ t * b) := by rw [hp]; ring
      omega
    rw [hdiv, ih k b h]

theorem popCountFuel_mask : ∀ s f, s ≤ f → popCountFuel f (2 ^ s - 1) = s := by
  intro s
  induction s with
  | zero => intro f _; simpa using popCountFuel_zero f
  | succ s ih =>
    intro f hf
    cases f with
    | zero => omega
    | succ f =>
      simp only [popCountFuel]
      have hp : (2 : Nat) ^ (s + 1) = 2 * 2 ^ s := by ring
      have h1 : 1 ≤ (2 : Nat) ^ s := Nat.one_le_two_pow
      have hmod : (2 ^ (s + 1) - 1) % 2 = 1 := by omega
      have hdiv : (2 ^ (s + 1) - 1) / 2 = 2 ^ s - 1 := by omega
      rw [hmod, hdiv, ih f (by omega)]
      omega

theorem szFuel_mask : ∀ s f, s ≤ f → szFuel f (2 ^ s - 1) = s := by
  intro s
  induction s with
  | zero => intro f _; simp [szFuel_le_bound]; cases f <;> simp [szFuel]
  | succ s ih =>
    intro f hf
    cases f with
    | zero => omega
    | succ f =>
      have hp : (2 : Nat) ^ (s + 1) = 2 * 2 ^ s := by ring
      have h1 : 1 ≤ (2 : Nat) ^ s := Nat.one_le_two_pow
      have hne : (2 : Nat) ^ (s + 1) - 1 ≠ 0 := by omega
      simp only [szFuel, if_neg hne]
      have hdiv : (2 ^ (s + 1) - 1) / 2 = 2 ^ s - 1 := by omega
      rw [hdiv, ih f (by omega)]

theorem popCount_complement : ∀ f c, c < 2 ^ f →
    popCountFuel f c + popCountFuel f (2 ^ f - 1 - c) = f := by
  intro f
  induction f with
  | zero => intro c h; interval_cases c; rfl
  | succ f ih =>
    intro c h
    have hp : (2 : Nat) ^ (f + 1) = 2 * 2 ^ f := by ring
    have h1 : 1 ≤ (2 : Nat) ^ f := Nat.one_le_two_pow
    have hdiv : (2 ^ (f + 1) - 1 - c) / 2 = 2 ^ f - 1 - c / 2 := by omega
    have hmod : (2 ^ (f + 1) - 1 - c) % 2 = 1 - c % 2 := by omega
    simp only [popCountFuel]
    rw [hdiv, hmod]
    have := ih (c / 2) (by omega)
    omega

theorem run_of_counts : ∀ f v, 0 < v → v < 2 ^ f →
    ctzFuel f v + popCountFuel f v = szFuel f v →
    v = (2 ^ popCountFuel f v - 1) * 2 ^ ctzFuel f v := by
  intro f
  induction f with
  | zero => intro v h1 h2; simp at h2; omega
  | succ f ih =>
    intro v h1 h2 heq
    by_cases hm : v % 2 = 1
    · have hctz : ctzFuel (f + 1) v = 0 := ctzFuel_odd _ _ hm
      rw [hctz] at heq ⊢
      have hlt := szFuel_lt_exp (f + 1) v h2
      have hsz : szFuel (f + 1) v = popCountFuel (f + 1) v := by omega
      rw [hsz] at hlt
      have hfull := popCount_full _ (f + 1) v hlt rfl
      simpa using hfull
    · have hm0 : v % 2 = 0 := by omega
      have hp : (2 : Nat) ^ (f + 1) = 2 * 2 ^ f := by ring
      have hv2pos : 0 < v / 2 := by omega
      have hdiv : v / 2 < 2 ^ f := by omega
      have hctz : ctzFuel (f + 1) v = ctzFuel f (v / 2) + 1 := by
        simp only [ctzFuel, if_neg hm]
      have hpop : popCountFuel (f + 1) v = popCountFuel f (v / 2) := by
        simp only [popCountFuel]; omega
      have hsz : szFuel (f + 1) v = szFuel f (v / 2) + 1 := by
        simp only [szFuel, if_neg (by omega : ¬ v = 0)]
      have heq' : ctzFuel f (v / 2) + popCountFuel f (v / 2) =
          szFuel f (v / 2) := by omega
      have hrec := ih (v / 2) hv2pos hdiv heq'
      rw [hctz, hpop]
      have hv : v = 2 * (v / 2) := by omega
      calc v = 2 * (v / 2) := hv
        _ = 2 * ((2 ^ popCountFuel f (v / 2) - 1) * 2 ^ ctzFuel f (v / 2)) := by
              rw [← hrec]
        _ = (2 ^ popCountFuel f (v / 2) - 1) * 2 ^ (ctzFuel f (v / 2) + 1) := by
              ring

theorem ctzFuel_maskShift (f s t : Nat) (hs : 1 ≤ s) (hst : s + t ≤ f) :
    ctzFuel f ((2 ^ s - 1) * 2 ^ t) = t := by
  have hs' : s = (s - 1) + 1 := by omega
  have h2 : (2 : Nat) ^ s = 2 * 2 ^ (s - 1) := by
    conv_lhs => rw [hs']
    ring
  have h3 : 1 ≤ (2 : Nat) ^ (s - 1) := Nat.one_le_two_pow
  have h1 : (2 ^ s - 1) % 2 = 1 := by omega
  have := ctzFuel_shift t (f - t) (2 ^ s - 1) h1
  rw [show t + (f - t) = f from by omega, mul_comm] at this
  exact this

theorem szFuel_maskShift (f s t : Nat) (hs : 1 ≤ s) (hst : s + t ≤ f) :
    szFuel f ((2 ^ s - 1) * 2 ^ t) = s + t := by
  have h3 : 2 ≤ (2 : Nat) ^ s := by
    calc (2 : Nat) = 2 ^ 1 := by norm_num
      _ ≤ 2 ^ s := Nat.pow_le_pow_right (by norm_num) hs
  have := szFuel_decomp t (f - t) 0 (2 ^ s - 1)
    (pow_pos (by norm_num) t) (by omega)
  rw [Nat.zero_add, show t + (f - t) = f from by omega, mul_comm] at this
  rw [this, szFuel_mask s (f - t) (by omega)]
  omega

theorem popCountFuel_maskShift (f s t : Nat) (hs : 1 ≤ s) (hst : s + t ≤ f) :
    popCountFuel f ((2 ^ s - 1) * 2 ^ t) = s := by
  have := popCountFuel_decomp t (f - t) 0 (2 ^ s - 1) (pow_pos (by norm_num) t)
  rw [Nat.zero_add, show t + (f - t) = f from by omega, mul_comm] at this
  rw [this, popCountFuel_zero, popCountFuel_mask s (f - t) (by omega)]
  omega

theorem or_disjoint_add (j a x : Nat) (ha : a % 2 ^ j = 0) (hx : x < 2 ^ j) :
    a ||| x = a + x := by
  obtain ⟨q, hq⟩ : 2 ^ j ∣ a := Nat.dvd_of_mod_eq_zero ha
  subst hq
  exact (Nat.mul_add_lt_is_or hx q).symm

theorem and63_eq_mod (x : Nat) : x &&& 63 = x % 64 := by
  have := Nat.and_pow_two_sub_one_eq_mod x 6
  norm_num at this
  exact this

theorem and1_eq_mod (x : Nat) : x &&& 1 = x % 2 := by
  simpa using Nat.and_pow_two_sub_one_eq_mod x 1

theorem encCombine (n r s : Nat) (hr : r < 64) (hs : s < 64) :
    (n <<< 12) ||| (r <<< 6) ||| s = n * 4096 + r * 64 + s := by
  have h1 : n <<< 12 = n * 4096 := by simp [Nat.shiftLeft_eq]
  have h2 : r <<< 6 = r * 64 := by simp [Nat.shiftLeft_eq]
  rw [h1, h2]
  have h3 : (n * 4096) ||| (r * 64) = n * 4096 + r * 64 := by
    apply or_disjoint_add 12
    · have : n * 4096 = (2 : Nat) ^ 12 * n := by ring
      rw [this]
      simp [Nat.mul_mod_right]
    · have : (2 : Nat) ^ 12 = 4096 := by norm_num
      rw [this]; omega
  rw [h3]
  apply or_disjoint_add 6
  · have : n * 4096 + r * 64 = (2 : Nat) ^ 6 * (n * 64 + r) := by ring
    rw [this]
    simp [Nat.mul_mod_right]
  · have : (2 : Nat) ^ 6 = 64 := by norm_num
    rw [this]; omega

theorem decode_eval (reg_width n r s size : Nat) (hn : n ≤ 1) (hr : r < 64)
    (hs : s < 64)
    (hsize : size = if n = 1 then 64 else if s < 32 then 32
      else if s < 48 then 16 else if s < 56 then 8
      else if s < 60 then 4 else 2) :
    DecodeLogicalImmediate reg_width (n * 4096 + r * 64 + s) =
      Replicate size (RotateRight size (2 ^ (s % size + 1) - 1) (r % size))
        (reg_width / size) := by
  subst hsize
  have e12 : ((n * 4096 + r * 64 + s) >>> 12) &&& 1 = n := by
    rw [Nat.shiftRight_eq_div_pow, and1_eq_mod]
    have h1 : (2 : Nat) ^ 12 = 4096 := by norm_num
    rw [h1]
    have h2 : (n * 4096 + r * 64 + s) / 4096 = n := by omega
    rw [h2]
    omega
  have e6 : ((n * 4096 + r * 64 + s) >>> 6) &&& 63 = r := by
    rw [Nat.shiftRight_eq_div_pow, and63_eq_mod]
    have h1 : (2 : Nat) ^ 6 = 64 := by norm_num
    rw [h1]
    have h2 : (n * 4096 + r * 64 + s) / 64 = n * 64 + r := by omega
    rw [h2]
    omega
  have e0 : (n * 4096 + r * 64 + s) &&& 63 = s := by
    rw [and63_eq_mod]
    omega
  unfold DecodeLogicalImmediate
  simp only [e12, e6, e0]

theorem rotateRight_zero (w x : Nat) : RotateRight w x 0 = x := by
  unfold RotateRight
  simp [Nat.mod_one]

theorem pow_sub_one_div (s r : Nat) (h : r ≤ s) :
    (2 ^ s - 1) / 2 ^ r = 2 ^ (s - r) - 1 := by
  have h1 : (2 : Nat) ^ s = 2 ^ r * 2 ^ (s - r) := by
    rw [← pow_add]
    congr 1
    omega
  have h2 : 0 < (2 : Nat) ^ r := pow_pos (by norm_num) r
  have h3 : 0 < (2 : Nat) ^ (s - r) := pow_pos (by norm_num) (s - r)
  have h4 : (2 : Nat) ^ r * (2 ^ (s - r) - 1) = 2 ^ r * 2 ^ (s - r) - 2 ^ r := by
    rw [Nat.mul_sub]
    omega
  have h5 : 2 ^ s - 1 = 2 ^ r * (2 ^ (s - r) - 1) + (2 ^ r - 1) := by
    rw [h4, ← h1]
    have : (2 : Nat) ^ r ≤ 2 ^ s := Nat.pow_le_pow_right (by norm_num) h
    omega
  rw [h5, Nat.mul_add_div h2, Nat.div_eq_of_lt (by omega)]
  omega

theorem pow_sub_one_mod (s r : Nat) (h : r ≤ s) :
    (2 ^ s - 1) % 2 ^ r = 2 ^ r - 1 := by
  have h1 : (2 : Nat) ^ s = 2 ^ r * 2 ^ (s - r) := by
    rw [← pow_add]
    congr 1
    omega
  have h2 : 0 < (2 : Nat) ^ r := pow_pos (by norm_num) r
  have h3 : 0 < (2 : Nat) ^ (s - r) := pow_pos (by norm_num) (s - r)
  have h4 : (2 : Nat) ^ r * (2 ^ (s - r) - 1) = 2 ^ r * 2 ^ (s - r) - 2 ^ r := by
    rw [Nat.mul_sub]
    omega
  have h5 : 2 ^ s - 1 = 2 ^ r * (2 ^ (s - r) - 1) + (2 ^ r - 1) := by
    rw [h4, ← h1]
    have : (2 : Nat) ^ r ≤ 2 ^ s := Nat.pow_le_pow_right (by norm_num) h
    omega
  rw [h5, Nat.mul_add_mod, Nat.mod_eq_of_lt (by omega)]

theorem rotateRight_maskShift (w s t : Nat) (hs : 1 ≤ s) (hst : s + t ≤ w)
    (ht : 1 ≤ t) :
    RotateRight w (2 ^ s - 1) (w - t) = (2 ^ s - 1) * 2 ^ t := by
  unfold RotateRight
  have h0 : (2 : Nat) ^ s ≤ 2 ^ (w - t) := Nat.pow_le_pow_right (by norm_num)
    (by omega)
  have h1 : (2 : Nat) ^ s - 1 < 2 ^ (w - t) := by
    have : 1 ≤ (2 : Nat) ^ s := Nat.one_le_two_pow
    omega
  rw [Nat.div_eq_of_lt h1, Nat.mod_eq_of_lt h1,
    show w - (w - t) = t from by omega]
  omega

theorem rotateRight_wrap (w s t' : Nat) (h1 : 1 ≤ t') (h2 : t' < s)
    (h3 : s ≤ w) :
    RotateRight w (2 ^ s - 1) (s - t') =
      (2 ^ t' - 1) + (2 ^ (s - t') - 1) * 2 ^ (w - s + t') := by
  unfold RotateRight
  rw [pow_sub_one_div s (s - t') (by omega),
    pow_sub_one_mod s (s - t') (by omega),
    show s - (s - t') = t' from by omega,
    show w - (s - t') = w - s + t' from by omega]

theorem comp_mask_eq (w sb to_ : Nat) (h1 : 1 ≤ to_) (h2 : to_ < sb)
    (h3 : sb ≤ w) :
    2 ^ w - 1 - (2 ^ (w - sb) - 1) * 2 ^ to_ =
      (2 ^ to_ - 1) + (2 ^ (sb - to_) - 1) * 2 ^ (w - sb + to_) := by
  have e1 : (2 : Nat) ^ (w - sb) * 2 ^ to_ = 2 ^ (w - sb + to_) := by
    rw [← pow_add]
  have e2 : (2 : Nat) ^ (sb - to_) * 2 ^ (w - sb + to_) = 2 ^ w := by
    rw [← pow_add]
    congr 1
    omega
  have e3 : ((2 : Nat) ^ (w - sb) - 1) * 2 ^ to_ = 2 ^ (w - sb + to_) - 2 ^ to_ := by
    rw [Nat.sub_mul, one_mul, e1]
  have e4 : ((2 : Nat) ^ (sb - to_) - 1) * 2 ^ (w - sb + to_) =
      2 ^ w - 2 ^ (w - sb + to_) := by
    rw [Nat.sub_mul, one_mul, e2]
  have p1 : 1 ≤ (2 : Nat) ^ to_ := Nat.one_le_two_pow
  have p2 : (2 : Nat) ^ to_ ≤ 2 ^ (w - sb + to_) :=
    Nat.pow_le_pow_right (by norm_num) (by omega)
  have p3 : (2 : Nat) ^ (w - sb + to_) ≤ 2 ^ w :=
    Nat.pow_le_pow_right (by norm_num) (by omega)
  omega

theorem replicate_one (w c : Nat) : Replicate w c 1 = c := by
  simp [Replicate]

theorem replicate_halved (h c' : Nat) :
    ∀ k, Replicate (h + h) (c' + 2 ^ h * c') k = Replicate h c' (2 * k) := by
  intro k
  induction k with
  | zero => rfl
  | succ k ih =>
    have harr : 2 * (k + 1) = (2 * k) + 1 + 1 := by omega
    rw [harr]
    simp only [Replicate]
    rw [ih]
    have hp : (2 : Nat) ^ (h + h) = 2 ^ h * 2 ^ h := by rw [← pow_add]
    rw [hp]
    ring

theorem width_pos_of_chunk (width c : Nat) (hpos : 0 < c) (hlt : c < 2 ^ width) :
    1 ≤ width := by
  by_contra h
  have : width = 0 := by omega
  subst this
  simp at hlt
  omega

theorem break1_spec (width c lz tz lo sb : Nat)
    (hpos : 0 < c) (hlt : c < 2 ^ width) (hne : c ≠ 2 ^ width - 1)
    (hlz : lz = width - szFuel width c)
    (htz : tz = ctzFuel width c)
    (hlo : lo = width - szFuel width (2 ^ width - 1 - c))
    (hsb : sb = popCountFuel width c)
    (hcond : lz + tz + sb = width) :
    (if lz + sb = width then 0 else if 0 < lz then width - tz else lo) < width ∧
    RotateRight width (2 ^ sb - 1)
      (if lz + sb = width then 0 else if 0 < lz then width - tz else lo) = c := by
  have hwpos := width_pos_of_chunk width c hpos hlt
  have hszle := szFuel_le width c
  have hsb1 : 1 ≤ popCountFuel width c := popCount_pos width c hpos hlt
  have hsble := popCount_le_sz width c
  subst hlz htz hlo hsb
  have hrun := run_of_counts width c hpos hlt (by omega)
  by_cases hA : width - szFuel width c + popCountFuel width c = width
  · rw [if_pos hA]
    have htz0 : ctzFuel width c = 0 := by omega
    rw [htz0] at hrun
    refine ⟨by omega, ?_⟩
    rw [rotateRight_zero]
    simpa using hrun.symm
  · rw [if_neg hA]
    have htz1 : 1 ≤ ctzFuel width c := by omega
    have hst : popCountFuel width c + ctzFuel width c ≤ width := by omega
    by_cases hB : 0 < width - szFuel width c
    · rw [if_pos hB]
      refine ⟨by omega, ?_⟩
      rw [rotateRight_maskShift width (popCountFuel width c) (ctzFuel width c)
        hsb1 hst htz1]
      exact hrun.symm
    · rw [if_neg hB]
      have hszw : szFuel width c = width := by omega
      have hsbtz : popCountFuel width c + ctzFuel width c = width := by omega
      have hpows : (2 : Nat) ^ popCountFuel width c * 2 ^ ctzFuel width c =
          2 ^ width := by rw [← pow_add, hsbtz]
      have hple : (2 : Nat) ^ ctzFuel width c ≤ 2 ^ width :=
        Nat.pow_le_pow_right (by norm_num) (by omega)
      have hc2 : c = 2 ^ width - 2 ^ ctzFuel width c := by
        conv_lhs => rw [hrun]
        rw [Nat.sub_mul, one_mul, hpows]
      have hd : 2 ^ width - 1 - c = 2 ^ ctzFuel width c - 1 := by
        have h1 : 1 ≤ (2 : Nat) ^ ctzFuel width c := Nat.one_le_two_pow
        omega
      rw [hd, szFuel_mask (ctzFuel width c) width (by omega)]
      refine ⟨by omega, ?_⟩
      rw [rotateRight_maskShift width (popCountFuel width c) (ctzFuel width c)
        hsb1 hst htz1]
      exact hrun.symm

theorem break2_spec (width c lz tz lo to_ sb : Nat)
    (hpos : 0 < c) (hlt : c < 2 ^ width) (hne : c ≠ 2 ^ width - 1)
    (hlz : lz = width - szFuel width c)
    (htz : tz = ctzFuel width c)
    (hlo : lo = width - szFuel width (2 ^ width - 1 - c))
    (hto : to_ = ctzFuel width (2 ^ width - 1 - c))
    (hsb : sb = popCountFuel width c)
    (hnot1 : ¬ (lz + tz + sb = width))
    (hcond : lo + to_ + (width - sb) = width) :
    (if lz + sb = width then 0 else if 0 < lz then width - tz else lo) < width ∧
    RotateRight width (2 ^ sb - 1)
      (if lz + sb = width then 0 else if 0 < lz then width - tz else lo) = c := by
  have hwpos := width_pos_of_chunk width c hpos hlt
  have hp1 : 1 ≤ (2 : Nat) ^ width := Nat.one_le_two_pow
  have hdpos : 0 < 2 ^ width - 1 - c := by omega
  have hdlt : 2 ^ width - 1 - c < 2 ^ width := by omega
  have hszle := szFuel_le width c
  have hszdle := szFuel_le width (2 ^ width - 1 - c)
  have hsb1 : 1 ≤ sb := by rw [hsb]; exact popCount_pos width c hpos hlt
  have hsble : sb ≤ szFuel width c := by rw [hsb]; exact popCount_le_sz width c
  have hpopd : popCountFuel width (2 ^ width - 1 - c) = width - sb := by
    have := popCount_complement width c hlt
    omega
  have hsbw : sb ≤ width := by omega
  have hsbne : sb ≠ width := by
    intro hcontra
    apply hne
    apply popCount_full width width c hlt
    rw [← hsb]
    exact hcontra
  have hcntd : ctzFuel width (2 ^ width - 1 - c) +
      popCountFuel width (2 ^ width - 1 - c) =
      szFuel width (2 ^ width - 1 - c) := by
    rw [hpopd, ← hto]
    omega
  have hrun_d := run_of_counts width (2 ^ width - 1 - c) hdpos hdlt hcntd
  rw [hpopd, ← hto] at hrun_d
  have hcfromd : c = 2 ^ width - 1 - (2 ^ width - 1 - c) := by omega
  have htole : to_ ≤ sb := by omega
  have htoge1 : 1 ≤ to_ := by
    by_contra hcontra
    have hto0 : to_ = 0 := by omega
    rw [hto0, pow_zero, mul_one] at hrun_d
    have hpows : (2 : Nat) ^ sb * 2 ^ (width - sb) = 2 ^ width := by
      rw [← pow_add]
      congr 1
      omega
    have hple : (2 : Nat) ^ (width - sb) ≤ 2 ^ width :=
      Nat.pow_le_pow_right (by norm_num) (by omega)
    have hple1 : 1 ≤ (2 : Nat) ^ (width - sb) := Nat.one_le_two_pow
    have hcm : c = (2 ^ sb - 1) * 2 ^ (width - sb) := by
      rw [Nat.sub_mul, one_mul, hpows]
      omega
    have hz1 := ctzFuel_maskShift width sb (width - sb) hsb1 (by omega)
    have hz2 := szFuel_maskShift width sb (width - sb) hsb1 (by omega)
    rw [← hcm] at hz1 hz2
    apply hnot1
    rw [hlz, htz, hz1, hz2]
    omega
  have htolt : to_ < sb := by
    by_contra hcontra
    have hto0 : to_ = sb := by omega
    rw [hto0] at hrun_d
    have hpows : (2 : Nat) ^ (width - sb) * 2 ^ sb = 2 ^ width := by
      rw [← pow_add]
      congr 1
      omega
    have hple : (2 : Nat) ^ sb ≤ 2 ^ width :=
      Nat.pow_le_pow_right (by norm_num) hsbw
    have h2s : 2 ≤ (2 : Nat) ^ sb := by
      calc (2 : Nat) = 2 ^ 1 := by norm_num
        _ ≤ 2 ^ sb := Nat.pow_le_pow_right (by norm_num) hsb1
    have hdm : 2 ^ width - 1 - c = 2 ^ width - 2 ^ sb := by
      rw [hrun_d, Nat.sub_mul, one_mul, hpows]
    have hcm : c = 2 ^ sb - 1 := by omega
    have hodd : c % 2 = 1 := by
      have hpsb : (2 : Nat) ^ sb = 2 * 2 ^ (sb - 1) := by
        conv_lhs => rw [show sb = (sb - 1) + 1 from by omega]
        ring
      omega
    have hz1 : ctzFuel width c = 0 := ctzFuel_odd width c hodd
    have hz2 : szFuel width c = sb := by
      conv_lhs => rw [hcm]
      exact szFuel_mask sb width hsbw
    apply hnot1
    rw [hlz, htz, hz1, hz2]
    omega
  have hceq : c = (2 ^ to_ - 1) +
      (2 ^ (sb - to_) - 1) * 2 ^ (width - sb + to_) := by
    conv_lhs => rw [hcfromd]
    rw [hrun_d]
    exact comp_mask_eq width sb to_ htoge1 htolt hsbw
  have hszc : szFuel width c = width := by
    have hm : to_ ≤ width - sb + to_ := by omega
    have ha : (2 : Nat) ^ to_ - 1 < 2 ^ (width - sb + to_) := by
      have h1 : (2 : Nat) ^ to_ ≤ 2 ^ (width - sb + to_) :=
        Nat.pow_le_pow_right (by norm_num) hm
      have h2 : 1 ≤ (2 : Nat) ^ to_ := Nat.one_le_two_pow
      omega
    have hb : 0 < (2 : Nat) ^ (sb - to_) - 1 := by
      have h2 : 2 ≤ (2 : Nat) ^ (sb - to_) := by
        calc (2 : Nat) = 2 ^ 1 := by norm_num
          _ ≤ 2 ^ (sb - to_) := Nat.pow_le_pow_right (by norm_num) (by omega)
      omega
    have hdec := szFuel_decomp (width - sb + to_) (sb - to_)
      (2 ^ to_ - 1) (2 ^ (sb - to_) - 1) ha hb
    rw [show (width - sb + to_) + (sb - to_) = width from by omega] at hdec
    rw [szFuel_mask (sb - to_) (sb - to_) (Nat.le_refl _)] at hdec
    rw [mul_comm ((2 : Nat) ^ (sb - to_) - 1) _] at hceq
    rw [← hceq] at hdec
    rw [hdec]
    omega
  have hlz0 : lz = 0 := by rw [hlz]; omega
  have hif1 : ¬ (lz + sb = width) := by omega
  rw [if_neg hif1, if_neg (by omega)]
  have hszd2 : szFuel width (2 ^ width - 1 - c) = to_ + (width - sb) := by
    rw [← hcntd, hpopd, ← hto]
  have hlo2 : lo = sb - to_ := by
    rw [hlo, hszd2]
    omega
  rw [hlo2]
  refine ⟨by omega, ?_⟩
  rw [rotateRight_wrap width sb to_ htoge1 htolt hsbw]
  rw [mul_comm ((2 : Nat) ^ (sb - to_) - 1) _] at hceq
  rw [hceq]
  ring

theorem break_finish (W width k : Nat)
    (hW : W = 32 ∨ W = 64) (hwid : width = 2 ^ k) (hk2 : 2 ≤ k)
    (hdvd : width ∣ W) (c sb imm_r : Nat)
    (hsb1 : 1 ≤ sb) (hsbw : sb ≤ width - 1) (himr : imm_r < width)
    (hror : RotateRight width (2 ^ sb - 1) imm_r = c) :
    DecodeLogicalImmediate W
      (((if width = 64 then 1 else 0) <<< 12) ||| (imm_r <<< 6) |||
        ((((-(2 * (width : Int))) % 2 ^ 32).toNat ||| (sb - 1)) &&& 0x3F)) =
      Replicate width c (W / width) := by
  have hk6 : k ≤ 6 := by
    have h1 : (2 : Nat) ^ k ≤ 64 := by
      rcases hW with h | h <;>
        · subst h
          have := Nat.le_of_dvd (by norm_num) (hwid ▸ hdvd)
          omega
    by_contra hcontra
    have h2 : (2 : Nat) ^ 7 ≤ 2 ^ k := Nat.pow_le_pow_right (by norm_num)
      (by omega)
    norm_num at h2
    omega
  interval_cases k
  · -- width = 4
    norm_num at hwid
    subst hwid
    have hn : (if (4 : Nat) = 64 then (1 : Nat) else 0) = 0 := by
      norm_num
    rw [hn]
    have hA : ((-(2 * ((4 : Nat) : Int))) % 2 ^ 32).toNat = 4294967288 := by
      decide
    rw [hA]
    rw [or_disjoint_add 2 4294967288 (sb - 1) (by norm_num) (by omega)]
    have hImm : ((4294967288 + (sb - 1)) &&& 63) = 56 + (sb - 1) := by
      rw [and63_eq_mod]; omega
    rw [hImm]
    rw [encCombine 0 imm_r (56 + (sb - 1)) (by omega) (by omega)]
    rw [decode_eval W 0 imm_r (56 + (sb - 1)) 4 (by omega) (by omega)
      (by omega) (by rw [if_neg (by omega), if_neg (by omega), if_neg (by omega), if_neg (by omega), if_pos (by omega)])]
    have hsmod : (56 + (sb - 1)) % 4 = sb - 1 := by omega
    rw [hsmod, Nat.mod_eq_of_lt himr,
      show sb - 1 + 1 = sb from by omega, hror]
  · -- width = 8
    norm_num at hwid
    subst hwid
    have hn : (if (8 : Nat) = 64 then (1 : Nat) else 0) = 0 := by
      norm_num
    rw [hn]
    have hA : ((-(2 * ((8 : Nat) : Int))) % 2 ^ 32).toNat = 4294967280 := by
      decide
    rw [hA]
    rw [or_disjoint_add 3 4294967280 (sb - 1) (by norm_num) (by omega)]
    have hImm : ((4294967280 + (sb - 1)) &&& 63) = 48 + (sb - 1) := by
      rw [and63_eq_mod]; omega
    rw [hImm]
    rw [encCombine 0 imm_r (48 + (sb - 1)) (by omega) (by omega)]
    rw [decode_eval W 0 imm_r (48 + (sb - 1)) 8 (by omega) (by omega)
      (by omega) (by rw [if_neg (by omega), if_neg (by omega), if_neg (by omega), if_pos (by omega)])]
    have hsmod : (48 + (sb - 1)) % 8 = sb - 1 := by omega
    rw [hsmod, Nat.mod_eq_of_lt himr,
      show sb - 1 + 1 = sb from by omega, hror]
  · -- width = 16
    norm_num at hwid
    subst hwid
    have hn : (if (16 : Nat) = 64 then (1 : Nat) else 0) = 0 := by
      norm_num
    rw [hn]
    have hA : ((-(2 * ((16 : Nat) : Int))) % 2 ^ 32).toNat = 4294967264 := by
      decide
    rw [hA]
    rw [or_disjoint_add 4 4294967264 (sb - 1) (by norm_num) (by omega)]
    have hImm : ((4294967264 + (sb - 1)) &&& 63) = 32 + (sb - 1) := by
      rw [and63_eq_mod]; omega
    rw [hImm]
    rw [encCombine 0 imm_r (32 + (sb - 1)) (by omega) (by omega)]
    rw [decode_eval W 0 imm_r (32 + (sb - 1)) 16 (by omega) (by omega)
      (by omega) (by rw [if_neg (by omega), if_neg (by omega), if_pos (by omega)])]
    have hsmod : (32 + (sb - 1)) % 16 = sb - 1 := by omega
    rw [hsmod, Nat.mod_eq_of_lt himr,
      show sb - 1 + 1 = sb from by omega, hror]
  · -- width = 32
    norm_num at hwid
    subst hwid
    have hn : (if (32 : Nat) = 64 then (1 : Nat) else 0) = 0 := by
      norm_num
    rw [hn]
    have hA : ((-(2 * ((32 : Nat) : Int))) % 2 ^ 32).toNat = 4294967232 := by
      decide
    rw [hA]
    rw [or_disjoint_add 5 4294967232 (sb - 1) (by norm_num) (by omega)]
    have hImm : ((4294967232 + (sb - 1)) &&& 63) = sb - 1 := by
      rw [and63_eq_mod]; omega
    rw [hImm]
    rw [encCombine 0 imm_r (sb - 1) (by omega) (by omega)]
    rw [decode_eval W 0 imm_r (sb - 1) 32 (by omega) (by omega)
      (by omega) (by rw [if_neg (by omega), if_pos (by omega)])]
    have hsmod : (sb - 1) % 32 = sb - 1 := by omega
    rw [hsmod, Nat.mod_eq_of_lt himr,
      show sb - 1 + 1 = sb from by omega, hror]
  · -- width = 64
    norm_num at hwid
    subst hwid
    have hn : (if (64 : Nat) = 64 then (1 : Nat) else 0) = 1 := by
      norm_num
    rw [hn]
    have hA : ((-(2 * ((64 : Nat) : Int))) % 2 ^ 32).toNat = 4294967168 := by
      decide
    rw [hA]
    rw [or_disjoint_add 6 4294967168 (sb - 1) (by norm_num) (by omega)]
    have hImm : ((4294967168 + (sb - 1)) &&& 63) = sb - 1 := by
      rw [and63_eq_mod]; omega
    rw [hImm]
    rw [encCombine 1 imm_r (sb - 1) (by omega) (by omega)]
    rw [decode_eval W 1 imm_r (sb - 1) 64 (by omega) (by omega)
      (by omega) (by rw [if_pos rfl])]
    have hsmod : (sb - 1) % 64 = sb - 1 := by omega
    rw [hsmod, Nat.mod_eq_of_lt himr,
      show sb - 1 + 1 = sb from by omega, hror]

theorem encLoop_correct (W : Nat) (hW : W = 32 ∨ W = 64) :
    ∀ fuel k width value set_bits imm_s_fixed
      lead_zero lead_one trail_zero trail_one,
    width = 2 ^ k → 1 ≤ k → width ∣ W → k + 1 ≤ fuel →
    value % 2 ^ width ≠ 0 →
    value % 2 ^ width ≠ 2 ^ width - 1 →
    lead_zero = width - szFuel width (value % 2 ^ width) →
    lead_one = width - szFuel width (2 ^ width - 1 - value % 2 ^ width) →
    trail_zero = ctzFuel width (value % 2 ^ width) →
    trail_one = ctzFuel width (2 ^ width - 1 - value % 2 ^ width) →
    set_bits = popCountFuel width (value % 2 ^ width) →
    imm_s_fixed = -(2 * (width : Int)) →
    EncLoop value lead_zero lead_one trail_zero trail_one fuel width set_bits
        imm_s_fixed = -1 ∨
    ∃ e : Nat,
      EncLoop value lead_zero lead_one trail_zero trail_one fuel width
          set_bits imm_s_fixed = Int.ofNat e ∧
      DecodeLogicalImmediate W e =
        Replicate width (value % 2 ^ width) (W / width) := by
  intro fuel
  induction fuel with
  | zero =>
    intro k width value set_bits imm_s_fixed lz lo tz to_ _ _ _ hfuel
    omega
  | succ fuel ih =>
    intro k width value set_bits imm_s_fixed lz lo tz to_ hwid hk1 hdvd hfuel
      hc0 hc1 hlz hlo htz hto hsb hfix
    by_cases hw2 : width = 2
    · -- step 2 of the loop: a two-bit-wide value is always encodable
      subst hw2
      right
      have hE : EncLoop value lz lo tz to_ (fuel + 1) 2 set_bits imm_s_fixed =
          Int.ofNat ((0 <<< 12) ||| ((value % 4 - 1) <<< 6) ||| 0x3C) := by
        simp only [EncLoop]
        rw [if_pos trivial]
      refine ⟨_, hE, ?_⟩
      have hc4 : (2 : Nat) ^ 2 = 4 := by norm_num
      rw [hc4] at hc0 hc1 ⊢
      have hc : value % 4 = 1 ∨ value % 4 = 2 := by
        have hlt4 : value % 4 < 4 := Nat.mod_lt _ (by norm_num)
        omega
      have hcomb : (0 <<< 12) ||| ((value % 4 - 1) <<< 6) ||| 0x3C =
          0 * 4096 + (value % 4 - 1) * 64 + 60 :=
        encCombine 0 (value % 4 - 1) 60 (by omega) (by omega)
      rw [hcomb, decode_eval W 0 (value % 4 - 1) 60 2 (by omega) (by omega)
        (by omega)
        (by rw [if_neg (by omega), if_neg (by omega), if_neg (by omega),
          if_neg (by omega), if_neg (by omega)])]
      rw [show (60 : Nat) % 2 = 0 from by norm_num]
      rcases hc with h | h
      · rw [h, show ((1 : Nat) - 1) % 2 = 0 from by norm_num, rotateRight_zero]
        norm_num
      · rw [h, show ((2 : Nat) - 1) % 2 = 1 from by norm_num]
        rw [show RotateRight 2 (2 ^ (0 + 1) - 1) 1 = 2 from by decide]
    · have hk2 : 2 ≤ k := by
        by_contra hcontra
        have hk : k = 1 := by omega
        subst hk
        norm_num at hwid
        exact hw2 hwid
      have hwge4 : 4 ≤ width := by
        rw [hwid]
        calc (4 : Nat) = 2 ^ 2 := by norm_num
          _ ≤ 2 ^ k := Nat.pow_le_pow_right (by norm_num) hk2
      have hcpos : 0 < value % 2 ^ width := by omega
      have hclt : value % 2 ^ width < 2 ^ width :=
        Nat.mod_lt _ (pow_pos (by norm_num) _)
      have hsb1 : 1 ≤ set_bits := by
        rw [hsb]
        exact popCount_pos _ _ hcpos hclt
      have hsble : set_bits ≤ szFuel width (value % 2 ^ width) := by
        rw [hsb]
        exact popCount_le_sz _ _
      have hszle := szFuel_le width (value % 2 ^ width)
      have hsbne : set_bits ≠ width := by
        intro hcontra
        apply hc1
        apply popCount_full width width _ hclt
        rw [← hsb]
        exact hcontra
      have hsbw : set_bits ≤ width - 1 := by omega
      by_cases hbr1 : lz + tz + set_bits = width
      · right
        have hE : EncLoop value lz lo tz to_ (fuel + 1) width set_bits
            imm_s_fixed =
            Int.ofNat (((if width = 64 then 1 else 0) <<< 12) |||
              ((if lz + set_bits = width then 0
                else if 0 < lz then width - tz else lo) <<< 6) |||
              (((imm_s_fixed % 2 ^ 32).toNat ||| (set_bits - 1)) &&& 0x3F)) := by
          simp only [EncLoop]
          rw [if_neg hw2, if_pos hbr1]
        refine ⟨_, hE, ?_⟩
        obtain ⟨himr, hror⟩ := break1_spec width (value % 2 ^ width) lz tz lo
          set_bits hcpos hclt hc1 hlz htz hlo hsb hbr1
        rw [hfix]
        exact break_finish W width k hW hwid hk2 hdvd (value % 2 ^ width)
          set_bits _ hsb1 hsbw himr hror
      · by_cases hbr2 : lo + to_ + (width - set_bits) = width
        · right
          have hE : EncLoop value lz lo tz to_ (fuel + 1) width set_bits
              imm_s_fixed =
              Int.ofNat (((if width = 64 then 1 else 0) <<< 12) |||
                ((if lz + set_bits = width then 0
                  else if 0 < lz then width - tz else lo) <<< 6) |||
                (((imm_s_fixed % 2 ^ 32).toNat ||| (set_bits - 1)) &&& 0x3F)) := by
            simp only [EncLoop]
            rw [if_neg hw2, if_neg hbr1, if_pos hbr2]
          refine ⟨_, hE, ?_⟩
          obtain ⟨himr, hror⟩ := break2_spec width (value % 2 ^ width) lz tz lo
            to_ set_bits hcpos hclt hc1 hlz htz hlo hto hsb hbr1 hbr2
          rw [hfix]
          exact break_finish W width k hW hwid hk2 hdvd (value % 2 ^ width)
            set_bits _ hsb1 hsbw himr hror
        · by_cases hhalf : value &&& (2 ^ (width / 2) - 1) =
              (value >>> (width / 2)) &&& (2 ^ (width / 2) - 1)
          · -- step 5: the two halves match, recurse at half width
            have hE : EncLoop value lz lo tz to_ (fuel + 1) width set_bits
                imm_s_fixed =
                EncLoop value lz lo tz to_ fuel (width / 2) (set_bits / 2)
                  (imm_s_fixed / 2) := by
              simp only [EncLoop]
              rw [if_neg hw2, if_neg hbr1, if_neg hbr2, if_pos hhalf]
            rw [hE]
            have h2k : (2 : Nat) ^ k = 2 * 2 ^ (k - 1) := by
              conv_lhs => rw [show k = (k - 1) + 1 from by omega]
              ring
            have hh : width / 2 = 2 ^ (k - 1) := by omega
            have hhw : width = width / 2 + width / 2 := by omega
            have hhpos : 0 < width / 2 := by omega
            have hpow2 : (2 : Nat) ^ (width / 2) * 2 ^ (width / 2) =
                2 ^ width := by
              rw [← pow_add, ← hhw]
            have hp2pos : 0 < (2 : Nat) ^ (width / 2) :=
              pow_pos (by norm_num) _
            have hp2one : 1 ≤ (2 : Nat) ^ (width / 2) := hp2pos
            -- the halves-equal condition, in chunk form
            have hmodeq : value % 2 ^ width % 2 ^ (width / 2) =
                value % 2 ^ (width / 2) := by
              apply Nat.mod_mod_of_dvd
              conv_rhs => rw [hhw]
              exact pow_dvd_pow 2 (by omega)
            have hdiveq : value % 2 ^ width / 2 ^ (width / 2) =
                value / 2 ^ (width / 2) % 2 ^ (width / 2) := by
              conv_lhs => rw [← hpow2]
              exact Nat.mod_mul_right_div_self value _ _
            have hhalf' : value % 2 ^ (width / 2) =
                value % 2 ^ width / 2 ^ (width / 2) := by
              rw [Nat.and_pow_two_sub_one_eq_mod, Nat.and_pow_two_sub_one_eq_mod,
                Nat.shiftRight_eq_div_pow] at hhalf
              rw [hdiveq]
              exact hhalf
            -- chunk decomposition c = c' + 2^(w/2) * c'
            have hdm := Nat.div_add_mod (value % 2 ^ width) (2 ^ (width / 2))
            have hdecomp : value % 2 ^ width =
                value % 2 ^ (width / 2) +
                2 ^ (width / 2) * (value % 2 ^ (width / 2)) := by
              rw [← hmodeq]
              conv_lhs => rw [← hdm]
              rw [← hhalf', hmodeq]
              omega
            have hc'lt : value % 2 ^ (width / 2) < 2 ^ (width / 2) :=
              Nat.mod_lt _ hp2pos
            have hc'0 : value % 2 ^ (width / 2) ≠ 0 := by
              intro hcontra
              apply hc0
              rw [hdecomp, hcontra]
              ring
            have hmulsub : 2 ^ (width / 2) * (2 ^ (width / 2) - 1) =
                2 ^ width - 2 ^ (width / 2) := by
              rw [Nat.mul_sub, mul_one, hpow2]
            have hc'1 : value % 2 ^ (width / 2) ≠ 2 ^ (width / 2) - 1 := by
              intro hcontra
              apply hc1
              rw [hdecomp, hcontra, hmulsub]
              have : (2 : Nat) ^ (width / 2) ≤ 2 ^ width := by
                conv_rhs => rw [← hpow2]
                exact Nat.le_mul_of_pos_left _ hp2pos
              omega
            have hc'pos : 0 < value % 2 ^ (width / 2) := by omega
            -- count transfers from the full chunk to the half chunk
            have hszT : szFuel width (value % 2 ^ width) =
                width / 2 + szFuel (width / 2) (value % 2 ^ (width / 2)) := by
              have := szFuel_decomp (width / 2) (width / 2)
                (value % 2 ^ (width / 2)) (value % 2 ^ (width / 2))
                hc'lt hc'pos
              rw [← hhw, ← hdecomp] at this
              exact this
            have htzT : ctzFuel width (value % 2 ^ width) =
                ctzFuel (width / 2) (value % 2 ^ (width / 2)) := by
              have := ctzFuel_decomp (width / 2) (width / 2)
                (value % 2 ^ (width / 2)) (value % 2 ^ (width / 2))
                hc'pos hc'lt
              rw [← hhw, ← hdecomp] at this
              exact this
            have hpopT : popCountFuel width (value % 2 ^ width) =
                2 * popCountFuel (width / 2) (value % 2 ^ (width / 2)) := by
              have := popCountFuel_decomp (width / 2) (width / 2)
                (value % 2 ^ (width / 2)) (value % 2 ^ (width / 2)) hc'lt
              rw [← hhw, ← hdecomp] at this
              omega
            -- complement decomposition
            have hdsub : 2 ^ (width / 2) *
                (2 ^ (width / 2) - 1 - value % 2 ^ (width / 2)) =
                2 ^ width - 2 ^ (width / 2) -
                  2 ^ (width / 2) * (value % 2 ^ (width / 2)) := by
              rw [Nat.mul_sub, hmulsub]
            have hmule : 2 ^ (width / 2) * (value % 2 ^ (width / 2)) ≤
                2 ^ width - 2 ^ (width / 2) := by
              rw [← hmulsub]
              exact Nat.mul_le_mul_left _ (by omega)
            have hddecomp : 2 ^ width - 1 - value % 2 ^ width =
                (2 ^ (width / 2) - 1 - value % 2 ^ (width / 2)) +
                2 ^ (width / 2) *
                  (2 ^ (width / 2) - 1 - value % 2 ^ (width / 2)) := by
              rw [hdsub]
              conv_lhs => rw [hdecomp]
              have h1 : (2 : Nat) ^ (width / 2) ≤ 2 ^ width := by
                conv_rhs => rw [← hpow2]
                exact Nat.le_mul_of_pos_left _ hp2pos
              omega
            have hd'pos : 0 < 2 ^ (width / 2) - 1 - value % 2 ^ (width / 2) := by
              omega
            have hd'lt : 2 ^ (width / 2) - 1 - value % 2 ^ (width / 2) <
                2 ^ (width / 2) := by omega
            have hszdT : szFuel width (2 ^ width - 1 - value % 2 ^ width) =
                width / 2 + szFuel (width / 2)
                  (2 ^ (width / 2) - 1 - value % 2 ^ (width / 2)) := by
              have := szFuel_decomp (width / 2) (width / 2)
                (2 ^ (width / 2) - 1 - value % 2 ^ (width / 2))
                (2 ^ (width / 2) - 1 - value % 2 ^ (width / 2))
                hd'lt hd'pos
              rw [← hhw, ← hddecomp] at this
              exact this
            have htodT : ctzFuel width (2 ^ width - 1 - value % 2 ^ width) =
                ctzFuel (width / 2)
                  (2 ^ (width / 2) - 1 - value % 2 ^ (width / 2)) := by
              have := ctzFuel_decomp (width / 2) (width / 2)
                (2 ^ (width / 2) - 1 - value % 2 ^ (width / 2))
                (2 ^ (width / 2) - 1 - value % 2 ^ (width / 2))
                hd'pos hd'lt
              rw [← hhw, ← hddecomp] at this
              exact this
            have hszle' := szFuel_le (width / 2) (value % 2 ^ (width / 2))
            have hszdle' := szFuel_le (width / 2)
              (2 ^ (width / 2) - 1 - value % 2 ^ (width / 2))
            -- apply the induction hypothesis at half width
            have hcast : ((width : Nat) : Int) = 2 * ((width / 2 : Nat) : Int) := by
              have : width = 2 * (width / 2) := by omega
              exact_mod_cast this
            rcases ih (k - 1) (width / 2) value (set_bits / 2)
              (imm_s_fixed / 2) lz lo tz to_ hh (by omega)
              (by rw [hh]
                  exact dvd_trans (pow_dvd_pow 2 (by omega)) (hwid ▸ hdvd))
              (by omega) hc'0 hc'1
              (by rw [hlz, hszT]; omega)
              (by rw [hlo, hszdT]; omega)
              (by rw [htz, htzT])
              (by rw [hto, htodT])
              (by rw [← hsb] at hpopT; omega)
              (by rw [hfix, hcast]; omega)
              with hres | ⟨e, he1, he2⟩
            · exact Or.inl hres
            · right
              refine ⟨e, he1, ?_⟩
              rw [he2]
              -- transfer the replication back to the full width
              obtain ⟨kk, hkk⟩ := hdvd
              have hWd : W / width = kk := by
                rw [hkk]
                exact Nat.mul_div_cancel_left kk (by omega)
              have hWh : W / (width / 2) = 2 * kk := by
                have h2w : width = 2 * (width / 2) := by omega
                have hexp : width * kk = (width / 2) * (2 * kk) := by
                  conv_lhs => rw [h2w]
                  ring
                rw [hkk, hexp]
                exact Nat.mul_div_cancel_left _ hhpos
              rw [hWd, hWh]
              conv_rhs => rw [hdecomp]
              have := replicate_halved (width / 2) (value % 2 ^ (width / 2)) kk
              rw [← hhw] at this
              rw [this]
          · -- step 6: no break and no half-width match; the value cannot
            -- be encoded
            left
            simp only [EncLoop]
            rw [if_neg hw2, if_neg hbr1, if_neg hbr2, if_neg hhalf]

theorem encode_unfold_wide (v : Nat) (hv : v < 2 ^ 64) (h0 : v ≠ 0)
    (h1 : v ≠ 2 ^ 64 - 1) :
    EncodeLogicalImmediate true v =
      EncLoop v (CountLeadingZeros true v)
        (CountLeadingZeros true (2 ^ 64 - 1 - v))
        (CountTrailingZeros true v)
        (CountTrailingZeros true (2 ^ 64 - 1 - v)) 7 64
        (CountSetBits true v) (-128) := by
  have hvmod : v % 2 ^ 64 = v := Nat.mod_eq_of_lt hv
  simp only [EncodeLogicalImmediate, hvmod]
  rw [if_neg (by simp [h0]; omega)]
  norm_num

theorem encode_unfold_narrow (v : Nat) (hv : v < 2 ^ 32) (h0 : v ≠ 0)
    (h1 : v ≠ 2 ^ 32 - 1) :
    EncodeLogicalImmediate false v =
      EncLoop v (CountLeadingZeros false v)
        (CountLeadingZeros false (2 ^ 64 - 1 - v))
        (CountTrailingZeros false v)
        (CountTrailingZeros false (2 ^ 64 - 1 - v)) 7 32
        (CountSetBits false v) (-64) := by
  have hv64 : v < 2 ^ 64 := by
    have : (2 : Nat) ^ 32 < 2 ^ 64 := by norm_num
    omega
  have hvmod : v % 2 ^ 64 = v := Nat.mod_eq_of_lt hv64
  have hvmod32 : v % 2 ^ 32 = v := Nat.mod_eq_of_lt hv
  simp only [EncodeLogicalImmediate, hvmod]
  rw [if_neg (by simp [h0, hvmod32]; omega)]
  norm_num

theorem narrow_complement_mod (v : Nat) (hv : v < 2 ^ 32) :
    (2 ^ 64 - 1 - v) % 2 ^ 32 = 2 ^ 32 - 1 - v := by
  have hPP : (2 : Nat) ^ 32 * 2 ^ 32 = 2 ^ 64 := by norm_num
  have hPm : (2 : Nat) ^ 32 * (2 ^ 32 - 1) = 2 ^ 64 - 2 ^ 32 := by
    rw [Nat.mul_sub, mul_one, hPP]
  have hsplit : 2 ^ 64 - 1 - v = 2 ^ 32 * (2 ^ 32 - 1) + (2 ^ 32 - 1 - v) := by
    rw [hPm]
    have : (2 : Nat) ^ 32 ≤ 2 ^ 64 := by norm_num
    omega
  rw [hsplit, Nat.mul_add_mod, Nat.mod_eq_of_lt (by omega)]

/-- C1: EncodeLogicalImmediate returns -1 on 0 and on the all-ones value
of the selected width (including, in 32-bit mode, a value whose low 32
bits are all ones); and whenever it returns a non-negative encoding,
decoding the returned (N, immr, imms) triple per the bitmask-replicate
table reproduces the value exactly at that width. -/
theorem encodeLogicalImmediate_roundtrip (is_wide : Bool) (v : Nat)
    (hv : v < if is_wide then 2 ^ 64 else 2 ^ 32) :
    (v = 0 → EncodeLogicalImmediate is_wide v = -1) ∧
    (v = (if is_wide then 2 ^ 64 else 2 ^ 32) - 1 →
      EncodeLogicalImmediate is_wide v = -1) ∧
    (is_wide = false → v % 2 ^ 32 = 2 ^ 32 - 1 →
      EncodeLogicalImmediate is_wide v = -1) ∧
    (0 ≤ EncodeLogicalImmediate is_wide v →
      DecodeLogicalImmediate (if is_wide then 64 else 32)
        (EncodeLogicalImmediate is_wide v).toNat = v) := by
  cases is_wide with
  | true =>
    simp only [eq_self_iff_true, if_true] at hv ⊢
    refine ⟨?_, ?_, ?_, ?_⟩
    · intro h0
      subst h0
      decide
    · intro h1
      subst h1
      decide
    · intro hcontra
      simp at hcontra
    · intro hge
      by_cases h0 : v = 0
      · subst h0
        exact absurd hge (by decide)
      · by_cases h1 : v = 2 ^ 64 - 1
        · subst h1
          exact absurd hge (by decide)
        · have hvmod : v % 2 ^ 64 = v := Nat.mod_eq_of_lt hv
          rw [encode_unfold_wide v hv h0 h1] at hge ⊢
          rcases encLoop_correct 64 (Or.inr rfl) 7 6 64 v (CountSetBits true v)
            (-128) (CountLeadingZeros true v)
            (CountLeadingZeros true (2 ^ 64 - 1 - v))
            (CountTrailingZeros true v)
            (CountTrailingZeros true (2 ^ 64 - 1 - v))
            (by norm_num) (by norm_num) (dvd_refl 64) (by norm_num)
            (by rw [hvmod]; exact h0) (by rw [hvmod]; exact h1)
            (by simp only [hvmod]; rfl)
            (by simp only [hvmod]; rfl)
            (by simp only [hvmod]; rfl)
            (by simp only [hvmod]; rfl)
            (by simp only [hvmod]; rfl)
            (by norm_num) with hres | ⟨e, he1, he2⟩
          · rw [hres] at hge
            exact absurd hge (by decide)
          · rw [he1, show (Int.ofNat e).toNat = e from rfl, he2, hvmod]
            simp [replicate_one]
  | false =>
    simp only [Bool.false_eq_true, if_false] at hv ⊢
    refine ⟨?_, ?_, ?_, ?_⟩
    · intro h0
      subst h0
      decide
    · intro h1
      subst h1
      decide
    · intro _ hones
      have hvmod : v % 2 ^ 32 = v := Nat.mod_eq_of_lt hv
      rw [hvmod] at hones
      subst hones
      decide
    · intro hge
      by_cases h0 : v = 0
      · subst h0
        exact absurd hge (by decide)
      · by_cases h1 : v = 2 ^ 32 - 1
        · subst h1
          exact absurd hge (by decide)
        · have hv64 : v < 2 ^ 64 := by
            have : (2 : Nat) ^ 32 < 2 ^ 64 := by norm_num
            omega
          have hvmod : v % 2 ^ 32 = v := Nat.mod_eq_of_lt hv
          have hcompl := narrow_complement_mod v hv
          rw [encode_unfold_narrow v hv h0 h1] at hge ⊢
          rcases encLoop_correct 32 (Or.inl rfl) 7 5 32 v (CountSetBits false v)
            (-64) (CountLeadingZeros false v)
            (CountLeadingZeros false (2 ^ 64 - 1 - v))
            (CountTrailingZeros false v)
            (CountTrailingZeros false (2 ^ 64 - 1 - v))
            (by norm_num) (by norm_num) (dvd_refl 32) (by norm_num)
            (by rw [hvmod]; exact h0) (by rw [hvmod]; exact h1)
            (by rfl)
            (by unfold CountLeadingZeros; rw [if_neg (by simp), hcompl, hvmod])
            (by rfl)
            (by unfold CountTrailingZeros; rw [if_neg (by simp), hcompl, hvmod])
            (by rfl)
            (by norm_num) with hres | ⟨e, he1, he2⟩
          · rw [hres] at hge
            exact absurd hge (by decide)
          · rw [he1, show (Int.ofNat e).toNat = e from rfl, he2, hvmod]
            simp [replicate_one]

/-- Witness for C1 at the wide value 0xFF00: the encoding succeeds and the
decode reproduces the value (the three failure clauses are not
exercised). -/
theorem encodeLogicalImmediate_roundtrip_witness :
    0 ≤ EncodeLogicalImmediate true 0xFF00 ∧
    DecodeLogicalImmediate 64 (EncodeLogicalImmediate true 0xFF00).toNat =
      0xFF00 :=
  ⟨by decide,
    (encodeLogicalImmediate_roundtrip true 0xFF00 (by decide)).2.2.2 (by decide)⟩

/-- C9: in 64-bit mode, EncodeLogicalImmediate succeeds on the single
contiguous run 0x00000000FFFFFFFF and on the half-width self-similar
pattern 0x5555555555555555, and fails on 0x0123456789ABCDEF. -/
theorem encodeLogicalImmediate_examples :
    0 ≤ EncodeLogicalImmediate true 0x00000000FFFFFFFF ∧
    0 ≤ EncodeLogicalImmediate true 0x5555555555555555 ∧
    EncodeLogicalImmediate true 0x0123456789ABCDEF = -1 := by
  refine ⟨by decide, by decide, by decide⟩

/- ===================================================================
   Theorems: LIR emitter (claims C6, C7, C8)
   =================================================================== -/

/-- C8: for the floating-point constant 0, at either width, exactly one
instruction is emitted — a move from the integer zero register — and the
literal pool is left untouched (no scan result is consulted and no entry
is added; the compact-immediate encoders sit on the non-zero path
only). -/
theorem loadFPConstantValue_zero (st : EmitState) (r : Nat) :
    (LoadFPConstantValue st r 0).1.lir =
      st.lir ++ [⟨plain .kA64Fmov2sw, [Int.ofNat r, rwzr]⟩] ∧
    (LoadFPConstantValue st r 0).1.literal_list = st.literal_list ∧
    (LoadFPConstantValue st r 0).2 =
      ⟨plain .kA64Fmov2sw, [Int.ofNat r, rwzr]⟩ ∧
    (LoadFPConstantValueWide st r 0).1.lir =
      st.lir ++ [⟨plain .kA64Fmov2Sx, [Int.ofNat r, rwzr]⟩] ∧
    (LoadFPConstantValueWide st r 0).1.literal_list = st.literal_list ∧
    (LoadFPConstantValueWide st r 0).2 =
      ⟨plain .kA64Fmov2Sx, [Int.ofNat r, rwzr]⟩ := by
  refine ⟨?_, ?_, ?_, ?_, ?_, ?_⟩ <;>
    simp [LoadFPConstantValue, LoadFPConstantValueWide, NewLIR]

/-- C7: on an integer register, LoadConstantNoClobber emits one
instruction when either 16-bit half is all-zero or all-ones (a plain
move or invert from the zero register when both halves are equal, a
movn/movz otherwise); failing that, one ORR-with-logical-immediate from
the zero register when the 32-bit encoding succeeds; otherwise exactly
the two instructions movz(low) then movk(high). -/
theorem loadConstantNoClobber_shapes (st : EmitState) (rd : RegStorage)
    (v : Int) (hf : rd.is_float = false) :
    ((Low16Bits v + 1) % 2 ^ 16 ≤ 1 ∨ (High16Bits v + 1) % 2 ^ 16 ≤ 1 →
      (Low16Bits v = High16Bits v →
        (LoadConstantNoClobber st rd v).1.lir = st.lir ++
          [⟨plain (if Low16Bits v = 0 then .kA64Mov2rr else .kA64Mvn2rr),
            [Int.ofNat rd.GetReg, rwzr]⟩]) ∧
      (Low16Bits v ≠ High16Bits v →
        ∃ i, (LoadConstantNoClobber st rd v).1.lir = st.lir ++ [i] ∧
          (i.opcode = plain .kA64Movn3rdM ∨
            i.opcode = plain .kA64Movz3rdM))) ∧
    (¬((Low16Bits v + 1) % 2 ^ 16 ≤ 1 ∨ (High16Bits v + 1) % 2 ^ 16 ≤ 1) →
      (0 ≤ EncodeLogicalImmediate false (v % 2 ^ 64).toNat →
        (LoadConstantNoClobber st rd v).1.lir = st.lir ++
          [⟨plain .kA64Orr3Rrl, [Int.ofNat rd.GetReg, rwzr,
            EncodeLogicalImmediate false (v % 2 ^ 64).toNat]⟩]) ∧
      (EncodeLogicalImmediate false (v % 2 ^ 64).toNat < 0 →
        (LoadConstantNoClobber st rd v).1.lir = st.lir ++
          [⟨plain .kA64Movz3rdM,
            [Int.ofNat rd.GetReg, Int.ofNat (Low16Bits v), 0]⟩,
           ⟨plain .kA64Movk3rdM,
            [Int.ofNat rd.GetReg, Int.ofNat (High16Bits v), 1]⟩])) := by
  simp only [LoadConstantNoClobber]
  rw [if_neg (by simp [RegStorage.IsFloat, hf])]
  constructor
  · intro hfast
    constructor
    · intro heq
      rw [if_pos hfast, if_pos heq]
      simp [NewLIR]
    · intro hne
      rw [if_pos hfast, if_neg hne]
      by_cases hu :
          (if (High16Bits v + 1) % 2 ^ 16 ≤ 1 then High16Bits v
            else Low16Bits v) ≠ 0
      · rw [if_pos hu]
        exact ⟨_, rfl, Or.inl rfl⟩
      · rw [if_neg hu]
        exact ⟨_, rfl, Or.inr rfl⟩
  · intro hnf
    constructor
    · intro hge
      rw [if_neg hnf, if_pos hge]
      simp [NewLIR]
    · intro hlt
      rw [if_neg hnf, if_neg (by omega)]
      simp [NewLIR]

/-- Witness for C7 at value 0x12345678 (neither half fast, logical
immediate fails): exactly movz then movk. -/
theorem loadConstantNoClobber_shapes_witness :
    (LoadConstantNoClobber ⟨[], [], []⟩ ⟨3, false, false⟩ 305419896).1.lir =
      [⟨plain .kA64Movz3rdM, [3, 22136, 0]⟩,
       ⟨plain .kA64Movk3rdM, [3, 4660, 1]⟩] := by
  have h :=
    (loadConstantNoClobber_shapes ⟨[], [], []⟩ ⟨3, false, false⟩ 305419896
      rfl).2 (by decide)
  have h2 := h.2 (by decide)
  simpa using h2

theorem loadConstantNoClobber_emits (st : EmitState) (rd : RegStorage)
    (v : Int) (hf : rd.is_float = false) :
    ((LoadConstantNoClobber st rd v).1.lir.length = st.lir.length + 1 ∨
      (LoadConstantNoClobber st rd v).1.lir.length = st.lir.length + 2) ∧
    (LoadConstantNoClobber st rd v).1.literal_list = st.literal_list ∧
    (LoadConstantNoClobber st rd v).1.free_temps = st.free_temps := by
  simp only [LoadConstantNoClobber]
  rw [if_neg (by simp [RegStorage.IsFloat, hf])]
  split_ifs <;> simp [NewLIR]

theorem loadBaseIndexed_emits (st : EmitState) (rb ri rd : RegStorage)
    (scale : Nat) (size : OpSize) :
    (LoadBaseIndexed st rb ri rd scale size).1.lir =
      st.lir ++ [(LoadBaseIndexed st rb ri rd scale size).2] ∧
    (LoadBaseIndexed st rb ri rd scale size).1.literal_list =
      st.literal_list ∧
    (LoadBaseIndexed st rb ri rd scale size).1.free_temps =
      st.free_temps := by
  rcases size <;> simp only [LoadBaseIndexed] <;> split_ifs <;>
    simp [NewLIR]

theorem storeBaseIndexed_emits (st : EmitState) (rb ri rs : RegStorage)
    (scale : Nat) (size : OpSize) :
    (StoreBaseIndexed st rb ri rs scale size).1.lir =
      st.lir ++ [(StoreBaseIndexed st rb ri rs scale size).2] ∧
    (StoreBaseIndexed st rb ri rs scale size).1.literal_list =
      st.literal_list ∧
    (StoreBaseIndexed st rb ri rs scale size).1.free_temps =
      st.free_temps := by
  rcases size <;> simp only [StoreBaseIndexed] <;> split_ifs <;>
    simp [NewLIR]

/-- C6 (amended): addressing-mode selection of the base+displacement
load and store.  An aligned displacement whose scaled value fits the
12-bit field yields exactly one scaled-offset instruction.  The unscaled
(ldur/stur) fallback exists only for the 64-bit operand sizes
(kDouble/kWord/k64) — for them alone, an out-of-line displacement that
fits a signed 9-bit field yields exactly one unscaled instruction.  In
every other out-of-line case the long sequence is emitted (constant
materialization into a scratch register, one or two instructions,
followed by one register-indexed access) and the scratch register is
freed, leaving the free-temp list exactly as before the call. -/
theorem baseDispBody_addressing (st : EmitState) (r_base r_val : RegStorage)
    (d : Int) (size : OpSize) (t : Nat) (ts : List Nat)
    (hft : st.free_temps = t :: ts) :
    ((loadDispInfo size r_val).2.2 ≠ plain .kA64Brk1d ↔
      (size = .kDouble ∨ size = .kWord ∨ size = .k64)) ∧
    ((storeDispInfo size r_val).2.2 ≠ plain .kA64Brk1d ↔
      (size = .kDouble ∨ size = .kWord ∨ size = .k64)) ∧
    (d % (2 ^ (loadDispInfo size r_val).1 : Int) = 0 ∧
        0 ≤ d / (2 ^ (loadDispInfo size r_val).1 : Int) ∧
        d / (2 ^ (loadDispInfo size r_val).1 : Int) < 4096 →
      (LoadBaseDispBody st r_base d r_val size).1.lir =
        st.lir ++ [⟨(loadDispInfo size r_val).2.1,
          [Int.ofNat r_val.GetReg, Int.ofNat r_base.GetReg,
            d / (2 ^ (loadDispInfo size r_val).1 : Int)]⟩]) ∧
    (¬(d % (2 ^ (loadDispInfo size r_val).1 : Int) = 0 ∧
        0 ≤ d / (2 ^ (loadDispInfo size r_val).1 : Int) ∧
        d / (2 ^ (loadDispInfo size r_val).1 : Int) < 4096) ∧
        ((loadDispInfo size r_val).2.2 ≠ plain .kA64Brk1d ∧
          IS_SIGNED_IMM9 d = true) →
      (LoadBaseDispBody st r_base d r_val size).1.lir =
        st.lir ++ [⟨(loadDispInfo size r_val).2.2,
          [Int.ofNat r_val.GetReg, Int.ofNat r_base.GetReg, d]⟩]) ∧
    (¬(d % (2 ^ (loadDispInfo size r_val).1 : Int) = 0 ∧
        0 ≤ d / (2 ^ (loadDispInfo size r_val).1 : Int) ∧
        d / (2 ^ (loadDispInfo size r_val).1 : Int) < 4096) ∧
        ¬((loadDispInfo size r_val).2.2 ≠ plain .kA64Brk1d ∧
          IS_SIGNED_IMM9 d = true) →
      ((LoadBaseDispBody st r_base d r_val size).1.lir.length =
          st.lir.length + 2 ∨
        (LoadBaseDispBody st r_base d r_val size).1.lir.length =
          st.lir.length + 3) ∧
      (LoadBaseDispBody st r_base d r_val size).1.free_temps =
        st.free_temps) ∧
    (d % (2 ^ (storeDispInfo size r_val).1 : Int) = 0 ∧
        0 ≤ d / (2 ^ (storeDispInfo size r_val).1 : Int) ∧
        d / (2 ^ (storeDispInfo size r_val).1 : Int) < 4096 →
      (StoreBaseDispBody st r_base d r_val size).1.lir =
        st.lir ++ [⟨(storeDispInfo size r_val).2.1,
          [Int.ofNat r_val.GetReg, Int.ofNat r_base.GetReg,
            d / (2 ^ (storeDispInfo size r_val).1 : Int)]⟩]) ∧
    (¬(d % (2 ^ (storeDispInfo size r_val).1 : Int) = 0 ∧
        0 ≤ d / (2 ^ (storeDispInfo size r_val).1 : Int) ∧
        d / (2 ^ (storeDispInfo size r_val).1 : Int) < 4096) ∧
        ((storeDispInfo size r_val).2.2 ≠ plain .kA64Brk1d ∧
          IS_SIGNED_IMM9 d = true) →
      (StoreBaseDispBody st r_base d r_val size).1.lir =
        st.lir ++ [⟨(storeDispInfo size r_val).2.2,
          [Int.ofNat r_val.GetReg, Int.ofNat r_base.GetReg, d]⟩]) ∧
    (¬(d % (2 ^ (storeDispInfo size r_val).1 : Int) = 0 ∧
        0 ≤ d / (2 ^ (storeDispInfo size r_val).1 : Int) ∧
        d / (2 ^ (storeDispInfo size r_val).1 : Int) < 4096) ∧
        ¬((storeDispInfo size r_val).2.2 ≠ plain .kA64Brk1d ∧
          IS_SIGNED_IMM9 d = true) →
      ((StoreBaseDispBody st r_base d r_val size).1.lir.length =
          st.lir.length + 2 ∨
        (StoreBaseDispBody st r_base d r_val size).1.lir.length =
          st.lir.length + 3) ∧
      (StoreBaseDispBody st r_base d r_val size).1.free_temps =
        st.free_temps) := by
  have hA : AllocTemp st = ({ st with free_temps := ts }, t) := by
    unfold AllocTemp
    rw [hft]
  refine ⟨?_, ?_, ?_, ?_, ?_, ?_, ?_, ?_⟩
  · rcases size <;> simp [loadDispInfo, plain, FWIDE, WIDE] <;>
      split_ifs <;> simp [plain, FWIDE, WIDE]
  · rcases size <;> simp [storeDispInfo, plain, FWIDE, WIDE] <;>
      split_ifs <;> simp [plain, FWIDE, WIDE]
  · intro h
    simp only [LoadBaseDispBody]
    rw [if_pos h]
    simp [NewLIR]
  · intro h
    simp only [LoadBaseDispBody]
    rw [if_neg h.1, if_pos h.2]
    simp [NewLIR]
  · intro h
    simp only [LoadBaseDispBody]
    rw [if_neg h.1, if_neg h.2, hA]
    obtain ⟨hlen, hpool, hfree⟩ :=
      loadConstantNoClobber_emits { st with free_temps := ts }
        ⟨t, false, false⟩ d rfl
    obtain ⟨hlir2, hpool2, hfree2⟩ :=
      loadBaseIndexed_emits
        (LoadConstantNoClobber { st with free_temps := ts }
          ⟨t, false, false⟩ d).1 r_base ⟨t, false, false⟩ r_val 0 size
    simp only [LoadConstant] at *
    constructor
    · simp only [FreeTemp]
      rw [hlir2]
      simp only [List.length_append, List.length_cons, List.length_nil]
      rcases hlen with h1 | h1 <;> simp at h1 ⊢ <;> omega
    · simp only [FreeTemp]
      rw [hfree2, hfree]
      rw [hft]
  · intro h
    simp only [StoreBaseDispBody]
    rw [if_pos h]
    simp [NewLIR]
  · intro h
    simp only [StoreBaseDispBody]
    rw [if_neg h.1, if_pos h.2]
    simp [NewLIR]
  · intro h
    simp only [StoreBaseDispBody]
    rw [if_neg h.1, if_neg h.2, hA]
    obtain ⟨hlen, hpool, hfree⟩ :=
      loadConstantNoClobber_emits { st with free_temps := ts }
        ⟨t, false, false⟩ d rfl
    obtain ⟨hlir2, hpool2, hfree2⟩ :=
      storeBaseIndexed_emits
        (LoadConstantNoClobber { st with free_temps := ts }
          ⟨t, false, false⟩ d).1 r_base ⟨t, false, false⟩ r_val 0 size
    simp only [LoadConstant] at *
    constructor
    · simp only [FreeTemp]
      rw [hlir2]
      simp only [List.length_append, List.length_cons, List.length_nil]
      rcases hlen with h1 | h1 <;> simp at h1 ⊢ <;> omega
    · simp only [FreeTemp]
      rw [hfree2, hfree]
      rw [hft]

/-- Witness for C6: a 32-bit load at aligned displacement 8 emits the
single scaled instruction with scaled offset 2. -/
theorem baseDispBody_addressing_witness :
    (LoadBaseDispBody ⟨[], [], [7]⟩ ⟨5, false, false⟩ 8 ⟨6, false, false⟩
      .k32).1.lir = [⟨plain .kA64Ldr3rXD, [6, 5, 2]⟩] := by
  have h :=
    (baseDispBody_addressing ⟨[], [], [7]⟩ ⟨5, false, false⟩
      ⟨6, false, false⟩ 8 .k32 7 [] rfl).2.2.1 (by decide)
  simpa using h

/-- Counterexample for C6 as stated: a 32-bit (k32) load with
displacement 1 is unaligned and fits a signed 9-bit field, so the claim
predicts exactly one unscaled instruction; the emitter instead produces
the two-instruction long sequence (the unscaled alt_opcode is left at
kA64Brk1d for every non-64-bit size). -/
theorem loadBaseDisp_unscaled_counterexample :
    IS_SIGNED_IMM9 1 = true ∧
    (1 : Int) % 4 ≠ 0 ∧
    (LoadBaseDispBody ⟨[], [], [9]⟩ ⟨5, false, false⟩ 1 ⟨6, false, false⟩
      .k32).1.lir.length = 2 ∧
    ¬∃ insn, (LoadBaseDispBody ⟨[], [], [9]⟩ ⟨5, false, false⟩ 1
      ⟨6, false, false⟩ .k32).1.lir = [insn] := by
  refine ⟨by decide, by decide, by decide, ?_⟩
  rintro ⟨insn, hi⟩
  have : (LoadBaseDispBody ⟨[], [], [9]⟩ ⟨5, false, false⟩ 1
      ⟨6, false, false⟩ .k32).1.lir.length = 1 := by rw [hi]; rfl
  rw [show (LoadBaseDispBody ⟨[], [], [9]⟩ ⟨5, false, false⟩ 1
      ⟨6, false, false⟩ .k32).1.lir.length = 2 from by decide] at this
  exact absurd this (by decide)

/- ===================================================================
   Theorems: graph builder (claims C4, C10)
   =================================================================== -/

theorem paramScanLoop_none (shorty : List Char) :
    ∀ n st pos pidx lidx,
      (∃ i, i < n ∧
        (shorty.getD (pos + i) 'V' = 'F' ∨ shorty.getD (pos + i) 'V' = 'D' ∨
          shorty.getD (pos + i) 'V' = 'J')) →
      paramScanLoop st shorty pos n pidx lidx = none := by
  intro n
  induction n with
  | zero =>
    rintro st pos pidx lidx ⟨i, hi, _⟩
    omega
  | succ m ih =>
    rintro st pos pidx lidx ⟨i, hi, hbad⟩
    by_cases hc : shorty.getD pos 'V' = 'F' ∨ shorty.getD pos 'V' = 'D' ∨
        shorty.getD pos 'V' = 'J'
    · simp only [paramScanLoop]
      rw [if_pos hc]
    · simp only [paramScanLoop]
      rw [if_neg hc]
      apply ih
      rcases i with _ | j
      · exact absurd (by simpa using hbad) hc
      · exact ⟨j, by omega,
          by rw [show pos + 1 + j = pos + (j + 1) from by omega]; exact hbad⟩

theorem loopMeetsBad_none :
    ∀ insns st off, loopMeetsBadOpcode st insns off = true →
      buildLoop st insns off = none := by
  intro insns
  induction insns with
  | nil =>
    intro st off h
    simp [loopMeetsBadOpcode] at h
  | cons insn rest ih =>
    intro st off h
    simp only [loopMeetsBadOpcode] at h
    simp only [buildLoop]
    by_cases hbad : (MaybeUpdateCurrentBlock st off).currentBlock ≠ none ∧
        insn.opcode = .OTHER
    · obtain ⟨hcb, hop⟩ := hbad
      obtain ⟨cb, hc⟩ := Option.ne_none_iff_exists'.mp hcb
      have hAn : AnalyzeDexInstruction (MaybeUpdateCurrentBlock st off) insn
          off = none := by
        simp [AnalyzeDexInstruction, hc, hop]
      rw [hAn]
    · rw [if_neg hbad] at h
      cases hAn : AnalyzeDexInstruction (MaybeUpdateCurrentBlock st off) insn
          off with
      | none => rfl
      | some st2 =>
        rw [hAn] at h
        exact ih st2 _ h

/-- C4: BuildGraph produces no graph — the clean no-graph value, nothing
partially emitted — whenever the code item has exception-handler tries,
whenever a scanned parameter shorty character is 'F', 'D' or 'J' (with a
dex compilation unit present), and whenever the translation loop meets
an opcode with no translation rule in live code. -/
theorem buildGraph_unsupported (hasDexUnit isStatic : Bool)
    (shorty : List Char) (ci : CodeItem)
    (h : 0 < ci.triesSize ∨
      (hasDexUnit = true ∧
        shortyHasBadParam isStatic shorty ci.insSize = true) ∨
      (∃ st1, InitializeParameters (initialBuilderState ci) hasDexUnit
          isStatic shorty ci.registersSize ci.insSize = some st1 ∧
        loopMeetsBadOpcode st1 ci.insns 0 = true)) :
    BuildGraph hasDexUnit isStatic shorty ci = none := by
  by_cases htry : ci.triesSize = 0
  case neg =>
    simp only [BuildGraph]
    rw [if_pos (by simp [CanHandleCodeItem, htry])]
  case pos =>
    rcases h with h | ⟨hdx, hbadp⟩ | ⟨st1, hinit, hbad⟩
    · omega
    · simp only [BuildGraph]
      rw [if_neg (by simp [CanHandleCodeItem, htry])]
      have hex : ∃ i, i < (if isStatic then ci.insSize else ci.insSize - 1) ∧
          (shorty.getD (1 + i) 'V' = 'F' ∨ shorty.getD (1 + i) 'V' = 'D' ∨
            shorty.getD (1 + i) 'V' = 'J') := by
        cases isStatic <;>
          simpa [shortyHasBadParam, List.any_eq_true] using hbadp
      have hni : InitializeParameters (initialBuilderState ci) hasDexUnit
          isStatic shorty ci.registersSize ci.insSize = none := by
        simp only [InitializeParameters]
        rw [if_neg (by simp [hdx])]
        cases isStatic with
        | true =>
          rw [if_pos rfl]
          exact paramScanLoop_none shorty _ _ _ _ _ (by simpa using hex)
        | false =>
          rw [if_neg (by simp)]
          exact paramScanLoop_none shorty _ _ _ _ _ (by simpa using hex)
      rw [hni]
    · simp only [BuildGraph]
      rw [if_neg (by simp [CanHandleCodeItem, htry])]
      rw [hinit]
      have hbl := loopMeetsBad_none ci.insns st1 0 hbad
      simp [hbl]

/-- Witness for C4: a static method whose single parameter is a float
('F' in the shorty) is rejected. -/
theorem buildGraph_unsupported_witness :
    BuildGraph true true ['V', 'F'] ⟨0, 1, 1, 0, []⟩ = none :=
  buildGraph_unsupported true true ['V', 'F'] ⟨0, 1, 1, 0, []⟩
    (Or.inr (Or.inl (by decide)))

/-- C10: with no current block (dead code after a terminating
instruction), AnalyzeDexInstruction returns success immediately with the
builder state untouched — no graph instruction is emitted; in
particular, an opcode with no translation rule occurring only in dead
code after a return-void does not make BuildGraph bail out. -/
theorem analyzeDex_deadCode (st : BuilderState) (insn : DexInstruction)
    (off : Int) (h : st.currentBlock = none) :
    AnalyzeDexInstruction st insn off = some st ∧
    BuildGraph true true ['V']
      ⟨0, 0, 0, 0,
        [⟨.RETURN_VOID, 1, 0, 0, 0, 0, 0, [], true⟩,
         ⟨.OTHER, 1, 0, 0, 0, 0, 0, [], true⟩]⟩ ≠ none := by
  constructor
  · simp [AnalyzeDexInstruction, h]
  · decide

/-- Witness for C10 at an empty dead-code state and an untranslatable
opcode. -/
theorem analyzeDex_deadCode_witness :
    AnalyzeDexInstruction ⟨none, [], [], [], false, false, 0⟩
      ⟨.OTHER, 1, 0, 0, 0, 0, 0, [], true⟩ 0 =
      some ⟨none, [], [], [], false, false, 0⟩ :=
  (analyzeDex_deadCode ⟨none, [], [], [], false, false, 0⟩
    ⟨.OTHER, 1, 0, 0, 0, 0, 0, [], true⟩ 0 rfl).1
